import Mathlib

/-!
Verification of the MMR-Universal regularizer module (`mmr_regularizer.py`).

The source computes, per training batch, region-boundary and decision-boundary
distance estimates by propagating a sensitivity tensor through the network's
convolutional and fully-connected layers, and turns them into hinge penalties.
We embed the module shallowly over exact rationals:

* tensors are nested lists of `ℚ` (`Vec`, `Mat`, `T3`, `T4`, `T5`), batch axis
  outermost, matching the `bs x d x h x w x c` layouts of the source comments;
* `tf.abs`, `tf.maximum`, `tf.minimum`, `tf.reduce_max` become explicit
  if-then-else definitions on `ℚ`;
* `tf.reshape` of the pattern "merge leading axes, apply an op, split back"
  is embedded as `List.map` over the leading axes, which agrees with the
  source on rectangular tensors; row-major flattening of trailing axes is
  `List.flatten`-based;
* `tf.norm(·, ord=q)` for `q = 1` and `q = np.inf` are exact (`norm1`,
  `normInf`); the Euclidean case `q = 2` has no exact rational value, so the
  development is parameterized by a function `n2 : Vec → ℚ` standing for that
  norm (theorems that need anything of it assume only `0 ≤ n2 v`, which holds
  for the real 2-norm);
* the two `np.random.rand` draws made by `mmr_cnn` (one per
  `zero_out_non_min_distances` call) are passed in explicitly as `rand1`,
  `rand2`, in the order the source draws them;
* Python's fall-through `return None` for an unrecognized `q` is the `none`
  of an `Option` result; no exception modelling is needed because the claims
  under study only concern the unsupported-norm path;
* the unused `model` parameter is dropped, and `strides, padding` are the
  hard-coded `[1,1,1,1,1], 'VALID'` of line 95 of the source, so every
  convolution runs with stride 1 and VALID padding, and the 2x2 max-pool
  inserted by `calc_v_conv` uses VALID padding as well.
-/

/-- Numerical-stability epsilon, `eps_num_stabil = 1e-5` (source line 92),
also the jitter magnitude `10**-5` of `zero_out_non_min_distances`. -/
def eps : ℚ := 1 / 100000

/-- Embedding of `tf.abs` on one scalar. -/
def absQ (v : ℚ) : ℚ := if v < 0 then -v else v

/-- Embedding of `tf.maximum` on scalars. -/
def maxQ (a b : ℚ) : ℚ := if a ≤ b then b else a

/-- Embedding of `tf.minimum` on scalars. -/
def minQ (a b : ℚ) : ℚ := if a ≤ b then a else b

abbrev Vec := List ℚ
abbrev Mat := List Vec
abbrev T3 := List Mat
abbrev T4 := List T3
abbrev T5 := List T4

/-- Row-major flattening of the trailing three axes: the effect of
`tf.reshape(t, [bs, h*w*c])` on one batch element. -/
def flat3 (t : T3) : Vec := (t.map (fun m => m.flatten)).flatten

/-- Entry `t[i][j][c]` of a rank-3 tensor (0 outside the stored range). -/
def idxT3 (t : T3) (i j c : ℕ) : ℚ := ((t.getD i []).getD j []).getD c 0

/-- Column `j` of a matrix, read with `getD`: the vector `M[., j]`. -/
def colFc (M : Mat) (j : ℕ) : Vec := M.map (fun r => r.getD j 0)

/-- The vector `Vb[., i, j, c]` running over the first (input-dimension)
axis of a `d x h x w x c` tensor: one column of the sensitivity tensor. -/
def colConv (Vb : T4) (i j c : ℕ) : Vec := Vb.map (fun s => idxT3 s i j c)

/-- Embedding of `tf.norm(v, ord=1)`: the sum of absolute values. -/
def norm1 (v : Vec) : ℚ := (v.map absQ).sum

/-- Embedding of `tf.norm(v, ord=np.inf)`: the maximum absolute value
(`0` for an empty vector, as in the reference framework). -/
def normInf (v : Vec) : ℚ := (v.map absQ).foldr maxQ 0

/-- The hinge factor `tf.maximum(0.0, 1.0 - dist / gamma)`. -/
def hinge (γ d : ℚ) : ℚ := maxQ 0 (1 - d / γ)

/-- Stabilization of a sensitivity entry,
`V + eps * cast(less(abs(V), eps))` (source lines 137, 148, 208, 225). -/
def stabV (v : ℚ) : ℚ := v + (if absQ v < eps then eps else 0)

/-- Stabilization of an (already non-negative) absolute difference,
`diff_v + eps * cast(less(diff_v, eps))` (source lines 165, 251): the source
omits the `abs` here because `diff_v` is an absolute value already. -/
def stabD (d : ℚ) : ℚ := d + (if d < eps then eps else 0)

/-! ### Distance selector (`get_min_distances`, `zero_out_non_min_distances`) -/

/-- The `k` smallest entries of a vector in ascending order.  The source
computes this as `-tf.nn.top_k(-dists, k).values`: the `k` largest entries of
the negation in descending order, negated back. -/
def kSmallest (v : Vec) (k : ℕ) : Vec := (List.insertionSort (· ≤ ·) v).take k

/-- `get_min_distances(dists, k)` (source lines 22-27): row-wise `k` smallest
distances of a `bs x n` tensor. -/
def get_min_distances (dists : Mat) (k : ℕ) : Mat := dists.map (fun row => kSmallest row k)

/-- Embedding of `tf.reduce_max` along a row: `none` plays the role of the
`-inf` that the reference framework returns for an empty reduction. -/
def rowMaxQ : Vec → Option ℚ
  | [] => none
  | a :: t =>
    match rowMaxQ t with
    | none => some a
    | some b => some (maxQ a b)

/-- The tie-breaking jitter `dist + 10**-5 * (rand - 0.5)` (source line 32):
one per-column draw `rand`, broadcast identically across the batch. -/
def jitterRow (rand row : Vec) : Vec :=
  List.zipWith (fun d r => d + eps * (r - 1/2)) row rand

/-- One row of `zero_out_non_min_distances`: jitter the row, take the maximum
of its `k` smallest entries (`-inf`, i.e. `none`, when that set is empty) and
mark with `1` exactly the jittered entries `≤` that threshold. -/
def rowMask (rand : Vec) (k : ℕ) (row : Vec) : Vec :=
  let jrow := jitterRow rand row
  match rowMaxQ (kSmallest jrow k) with
  | none => jrow.map (fun _ => (0:ℚ))
  | some t => jrow.map (fun d => if d ≤ t then (1:ℚ) else 0)

/-- `zero_out_non_min_distances(dist, n_boundaries)` (source lines 30-37),
with the single random draw `rand` made explicit: the same draw is applied to
every row of the batch. -/
def zero_out_non_min_distances (dist : Mat) (rand : Vec) (n_boundaries : ℕ) : Mat :=
  dist.map (rowMask rand n_boundaries)

/-! ### Sensitivity propagation (`calc_v_fc`, `calc_v_conv`) -/

/-- Map with the position passed along, starting from index `i`: the
element-with-index traversal used where the source enumerates an axis. -/
def idxMap {α β : Type} (f : ℕ → α → β) : ℕ → List α → List β
  | _, [] => []
  | i, a :: t => f i a :: idxMap f (i+1) t

/-- Dot product of two vectors (truncating to the shorter length). -/
def dot (a b : Vec) : ℚ := (List.zipWith (· * ·) a b).sum

/-- `v @ W` for a row vector `v` and an `n_prev x n_next` matrix `W`:
entry `j` of the result is `v` dotted with column `j` of `W`. -/
def vecMat (v : Vec) (W : Mat) : Vec :=
  (List.range ((W.getD 0 []).length)).map (fun j => dot v (colFc W j))

/-- `calc_v_fc(V_prev, W)` (source lines 40-52): the reshape to
`bs*d x n_prev`, matrix product with `W`, and reshape back to
`bs x d x n_next` act as the linear map applied to every `(b, d)` row. -/
def calc_v_fc (V_prev : T3) (W : Mat) : T3 :=
  V_prev.map (fun Vb => Vb.map (fun v => vecMat v W))

/-- Output length of a VALID-padding sliding window of size `k`, stride `s`. -/
def convOut (n k s : ℕ) : ℕ := if n < k then 0 else (n - k) / s + 1

/-- `tf.nn.conv2d` with VALID padding and stride `s` on one `h x w x c_in`
image, with an `kh x kw x c_in x c_out` filter. -/
def conv2d (img : T3) (w : T4) (s : ℕ) : T3 :=
  let kh := w.length
  let kw := (w.getD 0 []).length
  let cin := ((w.getD 0 []).getD 0 []).length
  let cout := (((w.getD 0 []).getD 0 []).getD 0 []).length
  (List.range (convOut img.length kh s)).map (fun i =>
    (List.range (convOut (img.getD 0 []).length kw s)).map (fun j =>
      (List.range cout).map (fun co =>
        ((List.range kh).map (fun di =>
          ((List.range kw).map (fun dj =>
            ((List.range cin).map (fun ci =>
              idxT3 img (i*s+di) (j*s+dj) ci *
                ((((w.getD di []).getD dj []).getD ci []).getD co 0))).sum)).sum)).sum)))

/-- Output length of the 2x2 stride-2 VALID max-pool along one axis. -/
def poolOut (n : ℕ) : ℕ := if n < 2 then 0 else (n - 2) / 2 + 1

/-- `tf.nn.max_pool2d(V, ksize=(2,2), strides=(2,2), padding='VALID')` on one
`h x w x c` image (source line 65). -/
def maxpool2d (img : T3) : T3 :=
  (List.range (poolOut img.length)).map (fun i =>
    (List.range (poolOut (img.getD 0 []).length)).map (fun j =>
      (List.range (((img.getD 0 []).getD 0 []).length)).map (fun c =>
        maxQ (maxQ (idxT3 img (2*i) (2*j) c) (idxT3 img (2*i) (2*j+1) c))
             (maxQ (idxT3 img (2*i+1) (2*j) c) (idxT3 img (2*i+1) (2*j+1) c)))))

/-- `calc_v_conv(V_prev, w, stride, padding, boo_last)` (source lines 55-70):
the reshape merges the `bs` and `d` axes, so pooling and convolution act on
each `(b, d)` slice; when `boo_last` is unset the 2x2 stride-2 max-pool runs
immediately before the convolution, and it is skipped when the flag is set. -/
def calc_v_conv (V_prev : T5) (w : T4) (stride : ℕ) (boo_last : Bool := false) : T5 :=
  V_prev.map (fun Vb => Vb.map (fun Vd =>
    conv2d (if boo_last then Vd else maxpool2d Vd) w stride))

/-! ### ReLU switches and broadcasting -/

/-- `tf.cast(tf.greater(z, 0), tf.float32)` on one scalar. -/
def indic (v : ℚ) : ℚ := if 0 < v then 1 else 0

/-- ReLU switch tensor of a conv pre-activation (`bs x h x w x c`). -/
def reluT4 (z : T4) : T4 := z.map (List.map (List.map (List.map indic)))

/-- ReLU switch tensor of a fully-connected pre-activation (`bs x n`). -/
def reluMat (z : Mat) : Mat := z.map (List.map indic)

/-- Combine two lists along one axis with the reference framework's
broadcasting rule: an axis of extent `1` is stretched to the other side's
extent; axes of equal extent combine elementwise.  (Unequal extents with
neither side `1` are a shape error in the reference framework, a path none
of the studied claims exercise; the elementwise fallback truncates there.) -/
def bZip {α β γ : Type} (f : α → β → γ) : List α → List β → List γ
  | [x], b => b.map (fun v => f x v)
  | a, [y] => a.map (fun v => f v y)
  | a, b => List.zipWith f a b

/-- Product of two rank-3 tensors with broadcasting on every axis: this is
what `V * relu` does on the trailing `h x w x c` axes — in particular, when
the seed of the single-norm branch has been max-pooled to smaller spatial
extents than the relu tensor, its size-1 axes are stretched, not
truncated. -/
def hadamard3 (a b : T3) : T3 :=
  bZip (fun x y => bZip (fun r u => bZip (· * ·) r u) x y) a b

/-- `V * relus_conv[i]`: the relu tensor `bs x 1 x h x w x c` broadcasts
over the `d` axis of `bs x d x h x w x c` (its axis-1 extent is literally
the `1` produced by `expand_dims`), and the trailing axes broadcast
entrywise. -/
def mulRelu5 (V : T5) (relu : T4) : T5 :=
  bZip (fun Vb Rb => Vb.map (fun Vd => hadamard3 Vd Rb)) V relu

/-- `V * relus_fc[i]`: the relu matrix `bs x 1 x n` broadcasts over `d`. -/
def mulRelu3 (V : T3) (relu : Mat) : T3 :=
  bZip (fun Vb rb => Vb.map (fun row => bZip (· * ·) row rb)) V relu

/-- Entrywise stabilization of a `bs x d x h x w x c` sensitivity tensor. -/
def stabT5 (V : T5) : T5 := V.map (List.map (List.map (List.map (List.map stabV))))

/-- Entrywise stabilization of a `bs x d x n` sensitivity tensor. -/
def stabT3 (V : T3) : T3 := V.map (List.map (List.map stabV))

/-! ### Region-boundary distances -/

/-- First-layer region-boundary distances (source lines 124-127 and 189-197):
the conv filter is flattened to `w_matrix : (kh*kw*cin) x cout`, each output
channel's denominator is the `nrm`-norm of the corresponding column — note
that no stabilization floor is applied here — and the distance at every
spatial position of channel `c` is `|z| /` that denominator. -/
def distRb0 (nrm : Vec → ℚ) (z0 : T4) (W0 : T4) : T4 :=
  let wm : Mat := W0.flatten.flatten
  z0.map (fun zb => zb.map (fun r => r.map (fun chan =>
    idxMap (fun c zv => absQ zv / nrm (colFc wm c)) 0 chan)))

/-- Modelled from the spec: the first-layer region-boundary distance as the
spec's words describe it, with the additive `1e-5` floor applied to each
near-zero entry of the flattened filter before the column norm is taken.
The source (lines 124-127, 189-197) applies no such floor at the first conv
layer; this definition exists only to be compared against `distRb0`. -/
def distRb0_floored (nrm : Vec → ℚ) (z0 : T4) (W0 : T4) : T4 :=
  let wm : Mat := (W0.flatten.flatten).map (List.map stabV)
  z0.map (fun zb => zb.map (fun r => r.map (fun chan =>
    idxMap (fun c zv => absQ zv / nrm (colFc wm c)) 0 chan)))

/-- Region-boundary distances of a later conv layer (source lines 138-139):
`|z_conv[i]| / tf.norm(V_stable, axis=1, ord=q)`, the norm running over the
input-dimension axis of the (already stabilized) sensitivity tensor. -/
def distRbConv (nrm : Vec → ℚ) (z : T4) (Vst : T5) : T4 :=
  List.zipWith (fun zb Vb =>
    idxMap (fun i r => idxMap (fun j chan => idxMap (fun c zv =>
      absQ zv / nrm (colConv Vb i j c)) 0 chan) 0 r) 0 zb) z Vst

/-- Region-boundary distances of a hidden fully-connected layer (source
line 149): `|z_fc[i]| / tf.norm(V_stable, axis=1, ord=q)`. -/
def distRbFc (nrm : Vec → ℚ) (z : Mat) (Vst : T3) : Mat :=
  List.zipWith (fun zb Vb =>
    idxMap (fun j zv => absQ zv / nrm (colFc Vb j)) 0 zb) z Vst

/-- `tf.concat([dist, new_dist], 1)`: row-wise concatenation. -/
def appendRows (a b : Mat) : Mat := List.zipWith (· ++ ·) a b

/-! ### Conv and fully-connected stages of `mmr_cnn` -/

/-- The identity input feature map
`tf.reshape(tf.eye(n_in, n_in), [1, n_in, h_in, w_in, c_in])`
(source lines 131, 201), one `h x w x c` slice per input dimension. -/
def eyeFM (h w c : ℕ) : T4 :=
  (List.range (h*w*c)).map (fun d =>
    (List.range h).map (fun i =>
      (List.range w).map (fun j =>
        (List.range c).map (fun k => if (i*w + j)*c + k = d then (1:ℚ) else 0))))

/-- The seed sensitivity tensor: `calc_v_conv` applied to the identity input
feature map, then tiled `bs` times (source lines 132-133 and 202-203).  The
single-norm branch leaves `boo_last` at its default `False`; the dual branch
passes `boo_last = True`. -/
def seedV (W0 : T4) (h w c bs : ℕ) (boo : Bool) : T5 :=
  List.replicate bs ((calc_v_conv [eyeFM h w c] W0 1 boo).getD 0 [])

/-- The conv loop of the single-norm branch (source lines 135-141), iterated
over the remaining `(z_conv[i], W_conv[i])` pairs: propagate, stabilize,
record `|z| / norm(V_stable)` flattened per example, then apply the relu
switches.  All loop iterations call `calc_v_conv` with `boo_last` unset. -/
def convStage (nrm : Vec → ℚ) : List (T4 × T4) → T5 → Mat → T5 × Mat
  | [], V, dist => (V, dist)
  | (z, w) :: rest, V, dist =>
    let Vn := calc_v_conv V w 1 false
    let nd := distRbConv nrm z (stabT5 Vn)
    convStage nrm rest (mulRelu5 Vn (reluT4 z)) (appendRows dist (nd.map flat3))

/-- The conv loop of the dual-norm branch (source lines 206-217): one pass
computing both distance accumulators, the `dist_rb_l1` one with the
`ord=np.inf` norm and the `dist_rb_linf` one with the `ord=1` norm, from the
same stabilized sensitivity tensor. -/
def convStageDual : List (T4 × T4) → T5 → Mat → Mat → T5 × Mat × Mat
  | [], V, d1, d2 => (V, d1, d2)
  | (z, w) :: rest, V, d1, d2 =>
    let Vn := calc_v_conv V w 1 false
    let Vst := stabT5 Vn
    convStageDual rest (mulRelu5 Vn (reluT4 z))
      (appendRows d1 ((distRbConv normInf z Vst).map flat3))
      (appendRows d2 ((distRbConv norm1 z Vst).map flat3))

/-- `tf.reshape(V, [bs, n_in, h*w*c])` (source lines 144, 220): flatten the
trailing axes of every `(b, d)` slice. -/
def flattenV (V : T5) : T3 := V.map (fun Vb => Vb.map flat3)

/-- The fully-connected loop of the single-norm branch (source lines
146-151), run over all but the last `(z_fc[i], W_fc[i])` pair. -/
def fcStage (nrm : Vec → ℚ) : List (Mat × Mat) → T3 → Mat → T3 × Mat
  | [], V, dist => (V, dist)
  | (z, w) :: rest, V, dist =>
    let Vn := calc_v_fc V w
    let nd := distRbFc nrm z (stabT3 Vn)
    fcStage nrm rest (mulRelu3 Vn (reluMat z)) (appendRows dist nd)

/-- The fully-connected loop of the dual-norm branch (source lines 222-233). -/
def fcStageDual : List (Mat × Mat) → T3 → Mat → Mat → T3 × Mat × Mat
  | [], V, d1, d2 => (V, d1, d2)
  | (z, w) :: rest, V, d1, d2 =>
    let Vn := calc_v_fc V w
    let Vst := stabT3 Vn
    fcStageDual rest (mulRelu3 Vn (reluMat z))
      (appendRows d1 (distRbFc normInf z Vst))
      (appendRows d2 (distRbFc norm1 z Vst))

/-- Region-boundary part of the single-norm branch: first-layer distances
from the filter columns, seed propagation (with the seed pool applied, since
line 132 leaves `boo_last` at `False`), the conv loop, flattening, and the
fully-connected loop; returns the final sensitivity tensor and the
accumulated `bs x total_neurons` distance matrix. -/
def singleConvFc (nrm : Vec → ℚ) (zc : List (T4 × T4)) (zf : List (Mat × Mat))
    (h w c bs : ℕ) : T3 × Mat :=
  let z0 := (zc.getD 0 ([], [])).1
  let W0 := (zc.getD 0 ([], [])).2
  let d0 : Mat := (distRb0 nrm z0 W0).map flat3
  let V0 := mulRelu5 (seedV W0 h w c bs false) (reluT4 z0)
  let cs := convStage nrm (zc.drop 1) V0 d0
  fcStage nrm zf.dropLast (flattenV cs.1) cs.2

/-- Region-boundary part of the dual-norm branch: as `singleConvFc` but with
both norms accumulated, and with the seed propagation run with
`boo_last = True` (line 202), so the seed pool is skipped. -/
def dualConvFc (zc : List (T4 × T4)) (zf : List (Mat × Mat))
    (h w c bs : ℕ) : T3 × Mat × Mat :=
  let z0 := (zc.getD 0 ([], [])).1
  let W0 := (zc.getD 0 ([], [])).2
  let d1 : Mat := (distRb0 normInf z0 W0).map flat3
  let d2 : Mat := (distRb0 norm1 z0 W0).map flat3
  let V0 := mulRelu5 (seedV W0 h w c bs true) (reluT4 z0)
  let cs := convStageDual (zc.drop 1) V0 d1 d2
  fcStageDual zf.dropLast (flattenV cs.1) cs.2.1 cs.2.2

/-! ### Decision-boundary distances -/

/-- `W_fc[-1]`, the weight of the last fully-connected (logit) layer. -/
def lastW (zf : List (Mat × Mat)) : Mat := ((zf.getLast?).map Prod.snd).getD []

/-- Decision-boundary numerator (source lines 168-175): for every class `k`,
the correct-class logit minus that class's logit, plus `100` on the
true-class entry. -/
def decisionNumer (y_true y_pred : Mat) : Mat :=
  List.zipWith (fun ypb yb =>
    let s := dot ypb yb
    List.zipWith (fun yp yv => s - yp + 100 * yv) ypb yb) y_pred y_true

/-- Decision-boundary denominator (source lines 157-166): propagate through
the last weight, build `V_argmax` (each `(b, d)` entry replaced by its
true-class column, obtained from the one-hot product), take the stabilized
absolute difference, and `nrm` it along the input-dimension axis. -/
def decisionDenom (nrm : Vec → ℚ) (n_out : ℕ) (V : T3) (Wlast : Mat)
    (y_true : Mat) : Mat :=
  let Vl := calc_v_fc V Wlast
  List.zipWith (fun Vb yb =>
    let diffb : Mat := Vb.map (fun drow => drow.map (fun v => stabD (absQ (v - dot drow yb))))
    (List.range n_out).map (fun k => nrm (colFc diffb k))) Vl y_true

/-- Decision-boundary distances (source line 177 resp. 265-266):
`numerator / denominator + y_true * 2 * gamma_db`. -/
def decisionDists (nrm : Vec → ℚ) (n_out : ℕ) (V : T3) (Wlast : Mat)
    (y_true y_pred : Mat) (gdb : ℚ) : Mat :=
  List.zipWith (fun nd yb => List.zipWith (fun v yv => v + yv * (2 * gdb)) nd yb)
    (List.zipWith (fun nb db => List.zipWith (· / ·) nb db)
      (decisionNumer y_true y_pred) (decisionDenom nrm n_out V Wlast y_true))
    y_true

/-! ### Hinge terms and the two branches of `mmr_cnn` -/

/-- One example's masked hinge sum,
`tf.reduce_sum(th * tf.maximum(0.0, 1.0 - dist / gamma), axis=1)`
(source lines 154, 180, 239-240). -/
def maskedTermRow (γ : ℚ) (th dr : Vec) : ℚ :=
  (List.zipWith (fun t d => t * hinge γ d) th dr).sum

/-- Batchwise masked hinge term. -/
def maskedTerm (th dist : Mat) (γ : ℚ) : Vec :=
  List.zipWith (fun t d => maskedTermRow γ t d) th dist

/-- One example's unmasked hinge sum,
`tf.reduce_sum(tf.maximum(0.0, 1.0 - dist / gamma), axis=1)`
(source lines 268-269). -/
def plainTermRow (γ : ℚ) (dr : Vec) : ℚ := (dr.map (hinge γ)).sum

/-- Batchwise unmasked hinge term. -/
def plainTerm (dist : Mat) (γ : ℚ) : Vec := dist.map (plainTermRow γ)

/-- The shared dual-mode mask `tf.minimum(th_l1 + th_linf, 1.0)`
(source line 238). -/
def unionMask (a b : Mat) : Mat :=
  List.zipWith (fun ra rb => List.zipWith (fun x y => minQ (x + y) 1) ra rb) a b

/-- Decision-boundary distance matrix as used by the single-norm branch. -/
def singleDb (nrm : Vec → ℚ) (zc : List (T4 × T4)) (zf : List (Mat × Mat))
    (h w c bs n_out : ℕ) (y_true y_pred : Mat) (gdb : ℚ) : Mat :=
  decisionDists nrm n_out (singleConvFc nrm zc zf h w c bs).1 (lastW zf) y_true y_pred gdb

/-- Decision-boundary distance matrix `dist_db_l1` of the dual branch
(denominator norm `ord=np.inf`, source line 253). -/
def dualDb1 (zc : List (T4 × T4)) (zf : List (Mat × Mat))
    (h w c bs n_out : ℕ) (y_true y_pred : Mat) (gdb : ℚ) : Mat :=
  decisionDists normInf n_out (dualConvFc zc zf h w c bs).1 (lastW zf) y_true y_pred gdb

/-- Decision-boundary distance matrix `dist_db_linf` of the dual branch
(denominator norm `ord=1`, source line 254). -/
def dualDb2 (zc : List (T4 × T4)) (zf : List (Mat × Mat))
    (h w c bs n_out : ℕ) (y_true y_pred : Mat) (gdb : ℚ) : Mat :=
  decisionDists norm1 n_out (dualConvFc zc zf h w c bs).1 (lastW zf) y_true y_pred gdb

/-- The single-norm branch of `mmr_cnn` (source lines 122-181): returns
`(rb_term, db_term)`.  `rand1` and `rand2` are the two random draws, in the
order the source makes them. -/
def mmrSingle (nrm : Vec → ℚ) (zc : List (T4 × T4)) (zf : List (Mat × Mat))
    (h w c bs n_out : ℕ) (y_true y_pred : Mat) (n_rb n_db : ℕ)
    (grb gdb : ℚ) (rand1 rand2 : Vec) : Vec × Vec :=
  let p := singleConvFc nrm zc zf h w c bs
  let th := zero_out_non_min_distances p.2 rand1 n_rb
  let ddb := singleDb nrm zc zf h w c bs n_out y_true y_pred gdb
  let th2 := zero_out_non_min_distances ddb rand2 n_db
  (maskedTerm th p.2 grb, maskedTerm th2 ddb gdb)

/-- The dual-norm (`q = 'univ'`) branch of `mmr_cnn` (source lines 183-273):
returns `reg_details = (rb_l1, rb_linf, db_l1, db_linf)`.  Both
region-boundary terms use the shared union mask; the decision-boundary terms
are summed with no selector mask. -/
def mmrDual (zc : List (T4 × T4)) (zf : List (Mat × Mat))
    (h w c bs n_out : ℕ) (y_true y_pred : Mat) (n_rb n_db : ℕ)
    (grb1 grbInf gdb1 gdbInf : ℚ) (rand1 rand2 : Vec) : Vec × Vec × Vec × Vec :=
  let p := dualConvFc zc zf h w c bs
  let th := unionMask (zero_out_non_min_distances p.2.1 rand1 n_rb)
                      (zero_out_non_min_distances p.2.2 rand2 n_rb)
  let d1 := dualDb1 zc zf h w c bs n_out y_true y_pred gdb1
  let d2 := dualDb2 zc zf h w c bs n_out y_true y_pred gdbInf
  (maskedTerm th p.2.1 grb1, maskedTerm th p.2.2 grbInf,
   plainTerm d1 gdb1, plainTerm d2 gdbInf)

/-! ### The top-level `mmr_cnn` -/

/-- A Python-level tensor argument: rank-1 (a bias), rank-2 (a
fully-connected weight or pre-activation), or rank-4 (a conv weight or
pre-activation).  The source dispatches on `len(shape) == 4`. -/
inductive Tens where
  | r1 (v : Vec)
  | r2 (m : Mat)
  | r4 (t : T4)
deriving DecidableEq

/-- Read a `Tens` as a rank-4 tensor (a shape-mismatched argument degenerates
to the empty tensor; the source would fail later with a shape error, a path
none of the studied claims exercise). -/
def Tens.asT4 : Tens → T4
  | .r4 t => t
  | _ => []

/-- Read a `Tens` as a rank-2 tensor (same degenerate convention). -/
def Tens.asMat : Tens → Mat
  | .r2 m => m
  | .r1 v => [v]
  | .r4 _ => []

/-- The conv-layer partition of the loop at source lines 101-111: the
rank-4 entries of `z_list`, each paired with `weights[2*i]` for its index
`i` in `z_list` — the weight list interleaves weights (even indices) and
biases (odd indices), and only even indices are ever read. -/
def convPairsFrom (weights : List Tens) : ℕ → List Tens → List (T4 × T4)
  | _, [] => []
  | i, .r4 z :: rest => (z, (weights.getD (2*i) (.r2 [])).asT4) :: convPairsFrom weights (i+1) rest
  | i, _ :: rest => convPairsFrom weights (i+1) rest

/-- The conv-layer pairs of `mmr_cnn`, starting the index at 0. -/
def convPairs (z_list weights : List Tens) : List (T4 × T4) :=
  convPairsFrom weights 0 z_list

/-- The fully-connected partition of the same loop: the non-rank-4 entries
of `z_list`, each paired with `weights[2*i]`. -/
def fcPairsFrom (weights : List Tens) : ℕ → List Tens → List (Mat × Mat)
  | _, [] => []
  | i, .r4 _ :: rest => fcPairsFrom weights (i+1) rest
  | i, u :: rest => (u.asMat, (weights.getD (2*i) (.r2 [])).asMat) :: fcPairsFrom weights (i+1) rest

/-- The fully-connected pairs of `mmr_cnn`, starting the index at 0. -/
def fcPairs (z_list weights : List Tens) : List (Mat × Mat) :=
  fcPairsFrom weights 0 z_list

/-- The `q` argument of `mmr_cnn`: a number, `np.inf`, the string `'univ'`,
or any other (unrecognized) Python value. -/
inductive Qarg where
  | num (x : ℚ)
  | infty
  | univ
  | other
deriving DecidableEq

/-- The `gamma_rb` / `gamma_db` arguments: a scalar in single-norm mode, a
two-element list `[gamma_l1, gamma_linf]` in dual mode. -/
inductive Garg where
  | scal (g : ℚ)
  | pair (a b : ℚ)
deriving DecidableEq

/-- First component of a gamma argument (`gamma[0]` in dual mode; the scalar
itself in single-norm mode). -/
def Garg.fst : Garg → ℚ
  | .scal g => g
  | .pair a _ => a

/-- Second component of a gamma argument (`gamma[1]` in dual mode). -/
def Garg.snd : Garg → ℚ
  | .scal g => g
  | .pair _ b => b

/-- Result of `mmr_cnn`: the `(rb_term, db_term)` tuple of the single-norm
branch, or the four-element `reg_details` list of the dual branch. -/
inductive MmrOut where
  | pair (rb db : Vec)
  | quad (rb1 rb2 db1 db2 : Vec)
deriving DecidableEq

/-- `mmr_cnn(z_list, x, y_true, model, n_rb, n_db, gamma_rb, gamma_db, bs,
q, weights)` (source lines 72-273).  `n2` stands for `tf.norm(·, ord=2)`
(see the header); `rand1`/`rand2` are the two random draws.  For `q` in
`[1, 2, np.inf]` the single-norm branch runs with the corresponding norm;
for `q = 'univ'` the dual branch runs; any other `q` falls through both
branches and the function returns Python's implicit `None`, embedded as
`Option.none`. -/
def mmr_cnn (n2 : Vec → ℚ) (z_list : List Tens) (x : T4) (y_true : Mat)
    (n_rb n_db : ℕ) (gamma_rb gamma_db : Garg) (bs : ℕ) (q : Qarg)
    (weights : List Tens) (rand1 rand2 : Vec) : Option MmrOut :=
  let y_pred := (z_list.getLast?.getD (.r2 [])).asMat
  let zc := convPairs z_list weights
  let zf := fcPairs z_list weights
  let h := (x.getD 0 []).length
  let w := ((x.getD 0 []).getD 0 []).length
  let c := (((x.getD 0 []).getD 0 []).getD 0 []).length
  let n_out := (y_true.getD 0 []).length
  if q = .num 1 then
    let r := mmrSingle norm1 zc zf h w c bs n_out y_true y_pred n_rb n_db
      gamma_rb.fst gamma_db.fst rand1 rand2
    some (.pair r.1 r.2)
  else if q = .num 2 then
    let r := mmrSingle n2 zc zf h w c bs n_out y_true y_pred n_rb n_db
      gamma_rb.fst gamma_db.fst rand1 rand2
    some (.pair r.1 r.2)
  else if q = .infty then
    let r := mmrSingle normInf zc zf h w c bs n_out y_true y_pred n_rb n_db
      gamma_rb.fst gamma_db.fst rand1 rand2
    some (.pair r.1 r.2)
  else if q = .univ then
    let r := mmrDual zc zf h w c bs n_out y_true y_pred n_rb n_db
      gamma_rb.fst gamma_rb.snd gamma_db.fst gamma_db.snd rand1 rand2
    some (.quad r.1 r.2.1 r.2.2.1 r.2.2.2)
  else
    none

/-! ### Congruence of the layer partition in the weight list -/

/-- `convPairsFrom` reads the weight list only at the even indices `2*i`. -/
theorem convPairsFrom_congr (w1 w2 : List Tens) :
    ∀ (start : ℕ) (zs : List Tens),
      (∀ i, start ≤ i → i < start + zs.length →
        w1.getD (2*i) (.r2 []) = w2.getD (2*i) (.r2 [])) →
      convPairsFrom w1 start zs = convPairsFrom w2 start zs := by
  intro start zs
  induction zs generalizing start with
  | nil => intro _; rfl
  | cons t rest ih =>
    intro h
    have hs := h start (le_refl start) (by simp only [List.length_cons]; omega)
    have hrest : ∀ i, start + 1 ≤ i → i < start + 1 + rest.length →
        w1.getD (2*i) (.r2 []) = w2.getD (2*i) (.r2 []) := by
      intro i h1 h2
      exact h i (by omega) (by simp only [List.length_cons]; omega)
    cases t with
    | r4 z => simp only [convPairsFrom, hs, ih (start+1) hrest]
    | r2 m => simp only [convPairsFrom, ih (start+1) hrest]
    | r1 v => simp only [convPairsFrom, ih (start+1) hrest]

/-- `fcPairsFrom` reads the weight list only at the even indices `2*i`. -/
theorem fcPairsFrom_congr (w1 w2 : List Tens) :
    ∀ (start : ℕ) (zs : List Tens),
      (∀ i, start ≤ i → i < start + zs.length →
        w1.getD (2*i) (.r2 []) = w2.getD (2*i) (.r2 [])) →
      fcPairsFrom w1 start zs = fcPairsFrom w2 start zs := by
  intro start zs
  induction zs generalizing start with
  | nil => intro _; rfl
  | cons t rest ih =>
    intro h
    have hs := h start (le_refl start) (by simp only [List.length_cons]; omega)
    have hrest : ∀ i, start + 1 ≤ i → i < start + 1 + rest.length →
        w1.getD (2*i) (.r2 []) = w2.getD (2*i) (.r2 []) := by
      intro i h1 h2
      exact h i (by omega) (by simp only [List.length_cons]; omega)
    cases t with
    | r4 z => simp only [fcPairsFrom, ih (start+1) hrest]
    | r2 m => simp only [fcPairsFrom, hs, ih (start+1) hrest]
    | r1 v => simp only [fcPairsFrom, hs, ih (start+1) hrest]

/-- C4: both propagation entry points preserve the batch axis and the
input-dimension axis exactly: `calc_v_fc(V, W)` keeps the per-example
axis-1 length of `V`, and so does `calc_v_conv(V, w, stride, boo_last)`;
only the trailing axes are reshaped by the layer operation. -/
theorem C4_axis_preservation (V : T3) (W : Mat) (Vc : T5) (w : T4) (s : ℕ) (b : Bool) :
    ((calc_v_fc V W).length = V.length ∧
      (calc_v_fc V W).map List.length = V.map List.length) ∧
    ((calc_v_conv Vc w s b).length = Vc.length ∧
      (calc_v_conv Vc w s b).map List.length = Vc.map List.length) := by
  refine ⟨⟨?_, ?_⟩, ?_, ?_⟩ <;>
    simp [calc_v_fc, calc_v_conv, List.map_map, Function.comp]

/-- C6: `calc_v_conv` applies the 2x2 stride-2 max-pool to every `(b, d)`
slice immediately before the convolution exactly when `boo_last` is unset,
and skips it when the flag is set; in the dual-norm branch the seed
propagation (`boo_last = True`, source line 202) is the only call that skips
the pool, while every loop step (source line 207, after `boo_last = False`
at line 205) applies it. -/
theorem C6_pool_placement :
    (∀ (V : T5) (w : T4) (s : ℕ),
      calc_v_conv V w s true = V.map (fun Vb => Vb.map (fun Vd => conv2d Vd w s))) ∧
    (∀ (V : T5) (w : T4) (s : ℕ),
      calc_v_conv V w s false =
        V.map (fun Vb => Vb.map (fun Vd => conv2d (maxpool2d Vd) w s))) ∧
    (∀ (W0 : T4) (h w c bs : ℕ),
      seedV W0 h w c bs true = List.replicate bs ((eyeFM h w c).map (fun Vd => conv2d Vd W0 1))) ∧
    (∀ (z : T4) (w : T4) (rest : List (T4 × T4)) (V : T5) (d1 d2 : Mat),
      convStageDual ((z, w) :: rest) V d1 d2 =
        convStageDual rest
          (mulRelu5 (V.map (fun Vb => Vb.map (fun Vd => conv2d (maxpool2d Vd) w 1))) (reluT4 z))
          (appendRows d1 ((distRbConv normInf z
            (stabT5 (V.map (fun Vb => Vb.map (fun Vd => conv2d (maxpool2d Vd) w 1))))).map flat3))
          (appendRows d2 ((distRbConv norm1 z
            (stabT5 (V.map (fun Vb => Vb.map (fun Vd => conv2d (maxpool2d Vd) w 1))))).map flat3))) ∧
    (∀ (zc : List (T4 × T4)) (zf : List (Mat × Mat)) (h w c bs : ℕ),
      dualConvFc zc zf h w c bs =
        (let V0 := mulRelu5 (seedV (zc.getD 0 ([], [])).2 h w c bs true)
                            (reluT4 (zc.getD 0 ([], [])).1)
         let cs := convStageDual (zc.drop 1) V0
           ((distRb0 normInf (zc.getD 0 ([], [])).1 (zc.getD 0 ([], [])).2).map flat3)
           ((distRb0 norm1 (zc.getD 0 ([], [])).1 (zc.getD 0 ([], [])).2).map flat3)
         fcStageDual zf.dropLast (flattenV cs.1) cs.2.1 cs.2.2)) := by
  refine ⟨fun V w s => rfl, fun V w s => rfl, fun W0 h w c bs => ?_, fun z w rest V d1 d2 => rfl,
    fun zc zf h w c bs => rfl⟩
  simp [seedV, calc_v_conv]

/-- C7 (amended): for any `q` outside the recognized set
`{1, 2, np.inf, 'univ'}` the function `mmr_cnn` falls through both branches
and returns Python's implicit `None` (`Option.none`): it raises no error and
never returns regularizer terms for such `q`. -/
theorem C7_unrecognized_q_returns_none (n2 : Vec → ℚ) (z_list : List Tens) (x : T4)
    (y_true : Mat) (n_rb n_db : ℕ) (grb gdb : Garg) (bs : ℕ) (q : Qarg)
    (weights : List Tens) (rand1 rand2 : Vec)
    (h1 : q ≠ .num 1) (h2 : q ≠ .num 2) (h3 : q ≠ .infty) (h4 : q ≠ .univ) :
    mmr_cnn n2 z_list x y_true n_rb n_db grb gdb bs q weights rand1 rand2 = none := by
  simp only [mmr_cnn, if_neg h1, if_neg h2, if_neg h3, if_neg h4]

/-- C7 (counterexample): at the concrete unrecognized value `q = 3`,
`mmr_cnn` returns `None` — a normal, non-error return carrying no terms —
rather than failing with an unsupported-norm error as the claim states. -/
theorem C7_counterexample :
    mmr_cnn (fun _ => 0) [.r2 [[1]]] [[[[1]]]] [[1]] 1 1 (.scal 1) (.scal 1) 1
      (.num 3) [.r2 [[1]]] [0] [0] = none := by
  have h1 : (Qarg.num 3) ≠ .num 1 := by norm_num
  have h2 : (Qarg.num 3) ≠ .num 2 := by norm_num
  have h3 : (Qarg.num 3) ≠ .infty := by simp
  have h4 : (Qarg.num 3) ≠ .univ := by simp
  simp only [mmr_cnn, if_neg h1, if_neg h2, if_neg h3, if_neg h4]

/-- C7 (witness for the amended theorem). -/
theorem C7_witness :
    mmr_cnn (fun _ => 0) [.r2 [[1]]] [[[[1]]]] [[1]] 1 1 (.scal 1) (.scal 1) 1
      (.num 3) [.r2 [[1]]] [0] [0] = none :=
  C7_unrecognized_q_returns_none (fun _ => 0) [.r2 [[1]]] [[[[1]]]] [[1]] 1 1
    (.scal 1) (.scal 1) 1 (.num 3) [.r2 [[1]]] [0] [0]
    (by norm_num) (by norm_num) (by simp) (by simp)

/-- C8: the decision-boundary terms of the dual-norm branch are the plain
hinge sums over all classes, with no `zero_out_non_min_distances` mask —
in particular they do not depend on either random draw — whereas the
single-norm branch multiplies its decision-boundary hinge by the
`zero_out_non_min_distances` mask computed with `k = n_db`. -/
theorem C8_db_mask_asymmetry (nrm : Vec → ℚ) (zc : List (T4 × T4)) (zf : List (Mat × Mat))
    (h w c bs n_out : ℕ) (y yp : Mat) (n_rb n_db : ℕ)
    (g1 g2 g3 g4 grb gdb : ℚ) (r1 r2 r1a r2a : Vec) :
    ((mmrDual zc zf h w c bs n_out y yp n_rb n_db g1 g2 g3 g4 r1 r2).2.2 =
      (mmrDual zc zf h w c bs n_out y yp n_rb n_db g1 g2 g3 g4 r1a r2a).2.2) ∧
    ((mmrDual zc zf h w c bs n_out y yp n_rb n_db g1 g2 g3 g4 r1 r2).2.2.1 =
      plainTerm (dualDb1 zc zf h w c bs n_out y yp g3) g3) ∧
    ((mmrDual zc zf h w c bs n_out y yp n_rb n_db g1 g2 g3 g4 r1 r2).2.2.2 =
      plainTerm (dualDb2 zc zf h w c bs n_out y yp g4) g4) ∧
    ((mmrSingle nrm zc zf h w c bs n_out y yp n_rb n_db grb gdb r1 r2).2 =
      maskedTerm
        (zero_out_non_min_distances (singleDb nrm zc zf h w c bs n_out y yp gdb) r2 n_db)
        (singleDb nrm zc zf h w c bs n_out y yp gdb) gdb) :=
  ⟨rfl, rfl, rfl, rfl⟩

/-- C10: `mmr_cnn` never reads the odd-indexed (bias) entries of the weight
list: two weight lists that agree at every even index `2*i` for `i` below
the length of `z_list` (the only indices the layer partition reads) produce
identical results, all other arguments and random draws held equal. -/
theorem C10_biases_unread (n2 : Vec → ℚ) (z_list : List Tens) (x : T4)
    (y_true : Mat) (n_rb n_db : ℕ) (grb gdb : Garg) (bs : ℕ) (q : Qarg)
    (w1 w2 : List Tens) (rand1 rand2 : Vec)
    (h : ∀ i, i < z_list.length → w1.getD (2*i) (.r2 []) = w2.getD (2*i) (.r2 [])) :
    mmr_cnn n2 z_list x y_true n_rb n_db grb gdb bs q w1 rand1 rand2 =
      mmr_cnn n2 z_list x y_true n_rb n_db grb gdb bs q w2 rand1 rand2 := by
  have hc : convPairs z_list w1 = convPairs z_list w2 :=
    convPairsFrom_congr w1 w2 0 z_list (fun i h1 h2 => h i (by omega))
  have hf : fcPairs z_list w1 = fcPairs z_list w2 :=
    fcPairsFrom_congr w1 w2 0 z_list (fun i h1 h2 => h i (by omega))
  simp only [mmr_cnn, hc, hf]

/-- C10 (witness): two concrete weight lists differing only in their bias
slot give identical outputs. -/
theorem C10_witness :
    mmr_cnn (fun _ => 0) [.r4 [[[[1],[1]],[[1],[1]]]], .r2 [[1,2]]] [[[[0],[0]],[[0],[0]]]]
      [[1,0]] 1 1 (.scal 10) (.scal 10) 1 (.num 1)
      [.r4 [[[[1]]]], .r1 [5,5], .r2 [[1,0],[0,1]], .r1 [7]] [0,0,0,0] [0,0] =
    mmr_cnn (fun _ => 0) [.r4 [[[[1],[1]],[[1],[1]]]], .r2 [[1,2]]] [[[[0],[0]],[[0],[0]]]]
      [[1,0]] 1 1 (.scal 10) (.scal 10) 1 (.num 1)
      [.r4 [[[[1]]]], .r1 [], .r2 [[1,0],[0,1]], .r1 [9,9,9]] [0,0,0,0] [0,0] :=
  C10_biases_unread (fun _ => 0) _ _ _ 1 1 (.scal 10) (.scal 10) 1 (.num 1) _ _ _ _
    (by
      intro i hi
      have h2 : i < 2 := by simpa using hi
      interval_cases i <;> rfl)

/-! ### Elementary facts about the scalar embeddings -/

theorem absQ_nonneg (v : ℚ) : 0 ≤ absQ v := by
  unfold absQ; split <;> linarith

theorem absQ_pos_of_ne (v : ℚ) (h : v ≠ 0) : 0 < absQ v := by
  unfold absQ; split
  · linarith
  · rcases lt_or_eq_of_le (by linarith : (0:ℚ) ≤ v) with h1 | h1
    · exact h1
    · exact absurd h1.symm h

theorem le_maxQ_left (a b : ℚ) : a ≤ maxQ a b := by
  unfold maxQ; split <;> linarith

theorem le_maxQ_right (a b : ℚ) : b ≤ maxQ a b := by
  unfold maxQ; split <;> linarith

theorem maxQ_eq_or (a b : ℚ) : maxQ a b = a ∨ maxQ a b = b := by
  unfold maxQ; split
  · exact Or.inr rfl
  · exact Or.inl rfl

theorem maxQ_le (a b c : ℚ) (ha : a ≤ c) (hb : b ≤ c) : maxQ a b ≤ c := by
  unfold maxQ; split <;> assumption

theorem minQ_le_left (a b : ℚ) : minQ a b ≤ a := by
  unfold minQ; split <;> linarith

theorem minQ_nonneg (a b : ℚ) (ha : 0 ≤ a) (hb : 0 ≤ b) : 0 ≤ minQ a b := by
  unfold minQ; split <;> assumption

theorem hinge_nonneg (γ d : ℚ) : 0 ≤ hinge γ d := le_maxQ_left 0 _

theorem hinge_le_one (γ d : ℚ) (hγ : 0 < γ) (hd : 0 ≤ d) : hinge γ d ≤ 1 := by
  unfold hinge
  have : 1 - d / γ ≤ 1 := by
    have := div_nonneg hd (le_of_lt hγ)
    linarith
  exact maxQ_le _ _ _ (by norm_num) this

theorem hinge_eq_zero (γ d : ℚ) (hγ : 0 < γ) (hd : 2 * γ ≤ d) : hinge γ d = 0 := by
  unfold hinge maxQ
  have h2 : (2:ℚ) ≤ d / γ := by
    rw [le_div_iff₀ hγ]; linarith
  split
  · linarith
  · rfl

theorem norm1_nonneg (v : Vec) : 0 ≤ norm1 v := by
  unfold norm1
  apply List.sum_nonneg
  intro x hx
  rcases List.mem_map.mp hx with ⟨a, _, rfl⟩
  exact absQ_nonneg a

theorem normInf_nonneg (v : Vec) : 0 ≤ normInf v := by
  unfold normInf
  induction v with
  | nil => simp
  | cons a t ih => simpa using le_trans ih (le_maxQ_right _ _)

/-! ### The selector: membership, counting, exact-k selection -/

theorem rowMaxQ_eq_none_iff (l : Vec) : rowMaxQ l = none ↔ l = [] := by
  cases l with
  | nil => simp [rowMaxQ]
  | cons a t =>
    simp only [rowMaxQ]
    cases h : rowMaxQ t <;> simp

theorem rowMaxQ_mem (l : Vec) (m : ℚ) (h : rowMaxQ l = some m) : m ∈ l := by
  induction l generalizing m with
  | nil => simp [rowMaxQ] at h
  | cons a t ih =>
    simp only [rowMaxQ] at h
    cases ht : rowMaxQ t with
    | none => rw [ht] at h; simp at h; simp [h]
    | some b =>
      rw [ht] at h
      simp at h
      rcases maxQ_eq_or a b with he | he
      · simp [← h, he]
      · right; rw [← h, he]; exact ih b ht

theorem le_rowMaxQ (l : Vec) (m : ℚ) (h : rowMaxQ l = some m) :
    ∀ x ∈ l, x ≤ m := by
  induction l generalizing m with
  | nil => simp
  | cons a t ih =>
    intro x hx
    simp only [rowMaxQ] at h
    cases ht : rowMaxQ t with
    | none =>
      rw [ht] at h; simp at h
      have : t = [] := (rowMaxQ_eq_none_iff t).mp ht
      subst this
      simp at hx
      simp [hx, h]
    | some b =>
      rw [ht] at h; simp at h
      rcases List.mem_cons.mp hx with rfl | hxt
      · rw [← h]; exact le_maxQ_left _ _
      · exact le_trans (ih b ht x hxt) (by rw [← h]; exact le_maxQ_right _ _)

/-- Counting a threshold predicate on a strictly sorted list: exactly
`min k (length)` entries lie at or below the maximum of the first `k`. -/
theorem countP_take_rowMaxQ (s : Vec) (hs : List.Sorted (· < ·) s) :
    ∀ (k : ℕ) (m : ℚ), rowMaxQ (s.take k) = some m →
      s.countP (fun d => decide (d ≤ m)) = min k s.length := by
  induction s with
  | nil => intro k m h; simp [List.take_nil, rowMaxQ] at h
  | cons a t ih =>
    intro k m h
    rcases List.sorted_cons.mp hs with ⟨hat, hts⟩
    cases k with
    | zero => simp [rowMaxQ] at h
    | succ j =>
      rw [List.take_succ_cons] at h
      simp only [rowMaxQ] at h
      cases htj : rowMaxQ (t.take j) with
      | none =>
        rw [htj] at h
        simp at h
        have hempty : t.take j = [] := (rowMaxQ_eq_none_iff _).mp htj
        have hcount : t.countP (fun d => decide (d ≤ m)) = 0 := by
          rw [List.countP_eq_zero]
          intro x hx
          have := hat x hx
          simp [← h]
          linarith
        rw [List.countP_cons, hcount]
        have : decide (a ≤ m) = true := by simp [← h]
        rw [this]
        rcases List.take_eq_nil_iff.mp hempty with rfl | rfl
        · simp
        · simp
      | some b =>
        rw [htj] at h
        simp at h
        have hbmem : b ∈ t := List.take_subset j t (rowMaxQ_mem _ _ htj)
        have hab : a ≤ b := le_of_lt (hat b hbmem)
        have hm : m = b := by
          rw [← h]; unfold maxQ; rw [if_pos hab]
        rw [← hm] at htj
        rw [List.countP_cons, ih hts j m htj]
        have : decide (a ≤ m) = true := by simp [hm, hab]
        rw [this]
        simp [List.length_cons, Nat.succ_min_succ]

/-- The sum of a 0/1 threshold mask is the number of entries below the
threshold. -/
theorem sum_mask_eq_countP (l : Vec) (t : ℚ) :
    ((l.map (fun d => if d ≤ t then (1:ℚ) else 0)).sum) =
      (l.countP (fun d => decide (d ≤ t)) : ℚ) := by
  induction l with
  | nil => simp
  | cons a r ih =>
    by_cases h : a ≤ t <;> simp [List.countP_cons, h, ih] <;> push_cast <;> ring

/-- Counting the ones of a 0/1 threshold mask. -/
theorem count_one_mask_eq_countP (l : Vec) (t : ℚ) :
    ((l.map (fun d => if d ≤ t then (1:ℚ) else 0)).count 1) =
      l.countP (fun d => decide (d ≤ t)) := by
  induction l with
  | nil => simp
  | cons a r ih =>
    by_cases h : a ≤ t <;>
      simp [List.count_cons, List.countP_cons, h, ih]

/-- Strict sortedness of the insertion sort of a duplicate-free list. -/
theorem sorted_lt_insertionSort (l : Vec) (hd : l.Pairwise (· ≠ ·)) :
    List.Sorted (· < ·) (List.insertionSort (· ≤ ·) l) := by
  have hperm := List.perm_insertionSort (· ≤ ·) l
  have hle : List.Sorted (· ≤ ·) (List.insertionSort (· ≤ ·) l) :=
    List.sorted_insertionSort (· ≤ ·) l
  have hne : (List.insertionSort (· ≤ ·) l).Pairwise (· ≠ ·) :=
    ((List.Perm.pairwise_iff (fun h => h.symm) hperm).mpr hd)
  exact (hle.and hne).imp (fun h => lt_of_le_of_ne h.1 h.2)

/-- Exact selection count: on a row whose jittered entries are pairwise
distinct, the selector marks exactly `min k N` entries (hence exactly `k`
when `k ≤ N`). -/
theorem rowMask_count_distinct (rand row : Vec) (k : ℕ)
    (hd : (jitterRow rand row).Pairwise (· ≠ ·)) :
    (rowMask rand k row).count 1 = min k (jitterRow rand row).length := by
  unfold rowMask
  cases h : rowMaxQ (kSmallest (jitterRow rand row) k) with
  | none =>
    simp only [h]
    have hnil := (rowMaxQ_eq_none_iff _).mp h
    unfold kSmallest at hnil
    rcases List.take_eq_nil_iff.mp hnil with rfl | hsort
    · simp [List.count_eq_zero]
    · have hjr : jitterRow rand row = [] := by
        have hp := List.perm_insertionSort (· ≤ ·) (jitterRow rand row)
        rw [hsort] at hp
        exact (List.Perm.nil_eq hp).symm
      simp [hjr]
  | some m =>
    simp only [h]
    rw [count_one_mask_eq_countP]
    have hperm := List.perm_insertionSort (· ≤ ·) (jitterRow rand row)
    rw [← List.Perm.countP_eq _ hperm]
    rw [countP_take_rowMaxQ _ (sorted_lt_insertionSort _ hd) k m h]
    rw [List.Perm.length_eq hperm]

/-- C3: `zero_out_non_min_distances` adds the single per-column jitter draw
identically to every row of the batch, thresholds each row at the maximum of
its `k` smallest jittered entries (the `k`-th smallest, obtained in the
source by negating and taking `top_k` of the negation; `-inf` when that set
is empty), marks with `1` exactly the jittered entries at or below that
threshold — and on a row whose jittered values are pairwise distinct with
`k ≤ N` it selects exactly `k` entries. -/
theorem C3_selector_exact_k (dist : Mat) (rand : Vec) (k : ℕ) :
    (zero_out_non_min_distances dist rand k = dist.map (rowMask rand k)) ∧
    (∀ row, rowMask rand k row =
      match rowMaxQ (kSmallest (jitterRow rand row) k) with
      | none => (jitterRow rand row).map (fun _ => (0:ℚ))
      | some t => (jitterRow rand row).map (fun d => if d ≤ t then (1:ℚ) else 0)) ∧
    (∀ row, (jitterRow rand row).Pairwise (· ≠ ·) →
      k ≤ (jitterRow rand row).length →
      (rowMask rand k row).count 1 = k) := by
  refine ⟨rfl, fun row => rfl, fun row hd hk => ?_⟩
  rw [rowMask_count_distinct rand row k hd]
  exact Nat.min_eq_left hk

/-- C3 (witness): on the row `[3, 1, 2]` with a zero draw and `k = 2`,
exactly two entries are selected. -/
theorem C3_witness : (rowMask [0,0,0] 2 [3,1,2]).count 1 = 2 :=
  (C3_selector_exact_k [[3,1,2]] [0,0,0] 2).2.2 [3,1,2]
    (by norm_num [jitterRow, eps, List.pairwise_cons])
    (by norm_num [jitterRow])

/-! ### The numerical-stability floor (C5) -/

theorem stabV_small (v : ℚ) (h : absQ v < eps) : stabV v = v + eps := by
  unfold stabV; rw [if_pos h]

theorem stabV_large (v : ℚ) (h : eps ≤ absQ v) : stabV v = v := by
  unfold stabV; rw [if_neg (not_lt.mpr h)]; ring

theorem stabV_ne_zero (v : ℚ) : stabV v ≠ 0 := by
  unfold stabV
  split
  · rename_i h
    unfold absQ at h
    have heps : (0:ℚ) < eps := by norm_num [eps]
    split at h <;> intro hc <;> linarith
  · rename_i h
    intro hc
    rw [add_zero] at hc
    subst hc
    simp [absQ, eps] at h

theorem absQ_le_normInf (x : ℚ) (t : Vec) : absQ x ≤ normInf (x :: t) := by
  unfold normInf
  simpa using le_maxQ_left _ _

/-- C5 (amended): the additive `1e-5` floor — each entry of absolute value
below `1e-5` gets `1e-5` added, entries at or above the floor pass through
unchanged, and no stabilized entry is zero, so `norm1` and `normInf` of a
stabilized nonempty column are strictly positive (degenerate all-zero
denominators divide by a positive number rather than raising) — is applied
at every region-boundary distance computation of the conv loop and the
fully-connected loop, but NOT at the first conv layer, whose denominator is
the raw `q`-norm of the flattened filter columns with no floor. -/
theorem C5_floor_except_first_layer :
    (∀ v : ℚ, absQ v < eps → stabV v = v + eps) ∧
    (∀ v : ℚ, eps ≤ absQ v → stabV v = v) ∧
    (∀ v : ℚ, stabV v ≠ 0) ∧
    (∀ col : Vec, col ≠ [] →
      0 < norm1 (col.map stabV) ∧ 0 < normInf (col.map stabV)) ∧
    (∀ (nrm : Vec → ℚ) (z w : T4) (rest : List (T4 × T4)) (V : T5) (dist : Mat),
      convStage nrm ((z, w) :: rest) V dist =
        convStage nrm rest (mulRelu5 (calc_v_conv V w 1 false) (reluT4 z))
          (appendRows dist
            ((distRbConv nrm z (stabT5 (calc_v_conv V w 1 false))).map flat3))) ∧
    (∀ (nrm : Vec → ℚ) (z w : Mat) (rest : List (Mat × Mat)) (V : T3) (dist : Mat),
      fcStage nrm ((z, w) :: rest) V dist =
        fcStage nrm rest (mulRelu3 (calc_v_fc V w) (reluMat z))
          (appendRows dist (distRbFc nrm z (stabT3 (calc_v_fc V w))))) ∧
    (∀ (nrm : Vec → ℚ) (z0 W0 : T4),
      distRb0 nrm z0 W0 = z0.map (fun zb => zb.map (fun r => r.map (fun chan =>
        idxMap (fun c zv => absQ zv / nrm (colFc (W0.flatten.flatten) c)) 0 chan)))) := by
  refine ⟨stabV_small, stabV_large, stabV_ne_zero, ?_,
    fun nrm z w rest V dist => rfl, fun nrm z w rest V dist => rfl, fun nrm z0 W0 => rfl⟩
  intro col hcol
  cases col with
  | nil => exact absurd rfl hcol
  | cons a t =>
    constructor
    · unfold norm1
      rw [List.map_cons, List.map_cons, List.sum_cons]
      have h1 : 0 < absQ (stabV a) := absQ_pos_of_ne _ (stabV_ne_zero a)
      have h2 : 0 ≤ ((t.map stabV).map absQ).sum := by
        apply List.sum_nonneg
        intro x hx
        rcases List.mem_map.mp hx with ⟨b, _, rfl⟩
        exact absQ_nonneg b
      linarith
    · rw [List.map_cons]
      exact lt_of_lt_of_le (absQ_pos_of_ne _ (stabV_ne_zero a)) (absQ_le_normInf _ _)

/-- C5 (counterexample): at the first conv layer the claim's floor is not
applied — with the single filter entry `1e-6` (below the floor) the source
divides by the raw column norm `1e-6`, giving distance `1e6`, where the
floored computation described by the spec would divide by `1e-6 + 1e-5`. -/
theorem C5_counterexample :
    distRb0 norm1 [[[[1]]]] [[[[1/1000000]]]] ≠
      distRb0_floored norm1 [[[[1]]]] [[[[1/1000000]]]] := by
  norm_num [distRb0, distRb0_floored, colFc, norm1, absQ, stabV, eps, idxMap]

/-- C5 (witness for the amended theorem). -/
theorem C5_witness :
    stabV (1/1000000) = 1/1000000 + eps ∧ stabV 1 = 1 ∧
      (0:ℚ) < norm1 ([0].map stabV) :=
  ⟨C5_floor_except_first_layer.1 _ (by norm_num [absQ, eps]),
   C5_floor_except_first_layer.2.1 _ (by norm_num [absQ, eps]),
   (C5_floor_except_first_layer.2.2.2.1 [0] (by simp)).1⟩

/-! ### Index bookkeeping for the decision stage (C9) -/

theorem getD_zipWith {α β γ : Type} (f : α → β → γ) (a : List α) (b : List β)
    (i : ℕ) (d : γ) (da : α) (db : β) (ha : i < a.length) (hb : i < b.length) :
    (List.zipWith f a b).getD i d = f (a.getD i da) (b.getD i db) := by
  induction a generalizing b i with
  | nil => simp at ha
  | cons x xs ih =>
    cases b with
    | nil => simp at hb
    | cons v vs =>
      cases i with
      | zero => simp
      | succ j =>
        simp only [List.zipWith_cons_cons, List.getD_cons_succ]
        exact ih vs j (by simpa using ha) (by simpa using hb)

theorem getD_map {α β : Type} (f : α → β) (l : List α) (i : ℕ) (d : β) (dl : α)
    (h : i < l.length) : (l.map f).getD i d = f (l.getD i dl) := by
  induction l generalizing i with
  | nil => simp at h
  | cons x xs ih =>
    cases i with
    | zero => simp
    | succ j =>
      simp only [List.map_cons, List.getD_cons_succ]
      exact ih j (by simpa using h)

theorem getD_range (n i : ℕ) (d : ℕ) (h : i < n) : (List.range n).getD i d = i := by
  rw [List.getD_eq_getElem _ _ (by simpa using h)]
  exact List.getElem_range i _

/-- A dot product against an all-zero vector vanishes. -/
theorem dot_zero_right (a b : Vec) (h : ∀ x ∈ b, x = 0) : dot a b = 0 := by
  induction a generalizing b with
  | nil => simp [dot]
  | cons x xs ih =>
    cases b with
    | nil => simp [dot]
    | cons v vs =>
      have hv : v = 0 := h v (List.mem_cons_self v vs)
      have hs : dot xs vs = 0 := ih vs (fun x hx => h x (List.mem_cons_of_mem v hx))
      simp only [dot, List.zipWith_cons_cons, List.sum_cons] at *
      rw [hv, hs]; ring

/-- A one-hot row: entry `t` is `1`, every other stored entry is `0`. -/
def OneHot (row : Vec) (t : ℕ) : Prop :=
  t < row.length ∧ row.getD t 0 = 1 ∧ ∀ j, j < row.length → j ≠ t → row.getD j 0 = 0

/-- Dotting against a one-hot vector selects the corresponding entry. -/
theorem dot_oneHot (a y : Vec) (t : ℕ) (hy : OneHot y t) (ht : t < a.length) :
    dot a y = a.getD t 0 := by
  induction t generalizing a y with
  | zero =>
    rcases hy with ⟨hlen, hone, hzero⟩
    cases y with
    | nil => simp at hlen
    | cons y0 ys =>
      cases a with
      | nil => simp at ht
      | cons a0 as =>
        simp only [List.getD_cons_zero] at hone ⊢
        have hys : ∀ x ∈ ys, x = 0 := by
          intro x hx
          rcases List.mem_iff_getElem.mp hx with ⟨j, hj, rfl⟩
          have hz := hzero (j+1) (by simpa using Nat.succ_lt_succ hj) (by omega)
          rw [List.getD_cons_succ, List.getD_eq_getElem _ _ hj] at hz
          exact hz
        have hrest : dot as ys = 0 := dot_zero_right as ys hys
        simp only [dot, List.zipWith_cons_cons, List.sum_cons] at *
        rw [hone, hrest]; ring
  | succ s ih =>
    rcases hy with ⟨hlen, hone, hzero⟩
    cases y with
    | nil => simp at hlen
    | cons y0 ys =>
      cases a with
      | nil => simp at ht
      | cons a0 as =>
        have hy0 : y0 = 0 := by
          have := hzero 0 (by simp) (by omega)
          simpa using this
        have hys : OneHot ys s := by
          refine ⟨by simpa using hlen, by simpa using hone, ?_⟩
          intro j hj hjs
          have := hzero (j+1) (by simpa using Nat.succ_lt_succ hj) (by omega)
          simpa using this
        have := ih as ys hys (by simpa using ht)
        simp only [dot, List.zipWith_cons_cons, List.sum_cons, List.getD_cons_succ] at *
        rw [hy0, this]; ring

/-- C9: for a one-hot label row and any dual norm, the true-class entry of
the decision-boundary distance tensor gets numerator exactly `100` (its
prediction margin is zero), its distance is `100 / denominator + 2*gamma_db`
with a non-negative first summand, hence at least `2*gamma_db`, and its
hinge `max(0, 1 - dist/gamma_db)` is exactly zero — so it contributes
nothing to the decision-boundary term, masked (single-norm mode) or
unmasked (dual mode). -/
theorem C9_true_class_excluded (nrm : Vec → ℚ) (n_out : ℕ) (V : T3) (Wlast : Mat)
    (y yp : Mat) (γ : ℚ) (b t : ℕ)
    (hnrm : ∀ v, 0 ≤ nrm v) (hγ : 0 < γ)
    (hb1 : b < y.length) (hb2 : b < yp.length) (hb3 : b < V.length)
    (ht_out : t < n_out) (ht_yp : t < (yp.getD b []).length)
    (hy : OneHot (y.getD b []) t) :
    (((decisionNumer y yp).getD b []).getD t 0 = 100) ∧
    (((decisionDists nrm n_out V Wlast y yp γ).getD b []).getD t 0 =
      100 / (((decisionDenom nrm n_out V Wlast y).getD b []).getD t 0) + 2 * γ) ∧
    (2 * γ ≤ ((decisionDists nrm n_out V Wlast y yp γ).getD b []).getD t 0) ∧
    (hinge γ (((decisionDists nrm n_out V Wlast y yp γ).getD b []).getD t 0) = 0) := by
  set yb := y.getD b [] with hyb
  set ypb := yp.getD b [] with hypb
  have ht_y : t < yb.length := hy.1
  -- the numerator row and entry
  have hnum_row : (decisionNumer y yp).getD b [] =
      List.zipWith (fun ypv yv => dot ypb yb - ypv + 100 * yv) ypb yb := by
    unfold decisionNumer
    exact getD_zipWith _ yp y b [] [] [] hb2 hb1
  have hnum_t : ((decisionNumer y yp).getD b []).getD t 0 = 100 := by
    rw [hnum_row, getD_zipWith _ ypb yb t 0 0 0 ht_yp ht_y,
      dot_oneHot ypb yb t hy ht_yp, hy.2.1]
    ring
  -- the denominator row and entry
  have hVl : b < (calc_v_fc V Wlast).length := by
    simpa [calc_v_fc] using hb3
  have hden_row : (decisionDenom nrm n_out V Wlast y).getD b [] =
      (List.range n_out).map (fun k => nrm (colFc
        (((calc_v_fc V Wlast).getD b []).map (fun drow => drow.map
          (fun v => stabD (absQ (v - dot drow yb))))) k)) := by
    unfold decisionDenom
    exact getD_zipWith _ (calc_v_fc V Wlast) y b [] [] [] hVl hb1
  have hden_t : ((decisionDenom nrm n_out V Wlast y).getD b []).getD t 0 =
      nrm (colFc (((calc_v_fc V Wlast).getD b []).map (fun drow => drow.map
        (fun v => stabD (absQ (v - dot drow yb))))) t) := by
    rw [hden_row, getD_map _ _ t 0 0 (by simpa using ht_out), getD_range _ _ _ ht_out]
  have hD : 0 ≤ ((decisionDenom nrm n_out V Wlast y).getD b []).getD t 0 := by
    rw [hden_t]; exact hnrm _
  -- the distance row and entry
  have hnd_len_b : b < (List.zipWith (fun nb db => List.zipWith (· / ·) nb db)
      (decisionNumer y yp) (decisionDenom nrm n_out V Wlast y)).length := by
    rw [List.length_zipWith]
    refine lt_min ?_ ?_
    · unfold decisionNumer; rw [List.length_zipWith]; exact lt_min hb2 hb1
    · unfold decisionDenom; rw [List.length_zipWith]; exact lt_min hVl hb1
  have hrow : (decisionDists nrm n_out V Wlast y yp γ).getD b [] =
      List.zipWith (fun v yv => v + yv * (2 * γ))
        (List.zipWith (· / ·) ((decisionNumer y yp).getD b [])
          ((decisionDenom nrm n_out V Wlast y).getD b [])) yb := by
    unfold decisionDists
    rw [getD_zipWith _ _ y b [] [] [] hnd_len_b hb1]
    rw [getD_zipWith _ (decisionNumer y yp) (decisionDenom nrm n_out V Wlast y) b [] [] []
      (by unfold decisionNumer; rw [List.length_zipWith]; exact lt_min hb2 hb1)
      (by unfold decisionDenom; rw [List.length_zipWith]; exact lt_min hVl hb1)]
  have ht_num : t < ((decisionNumer y yp).getD b []).length := by
    rw [hnum_row, List.length_zipWith]; exact lt_min ht_yp ht_y
  have ht_den : t < ((decisionDenom nrm n_out V Wlast y).getD b []).length := by
    rw [hden_row, List.length_map, List.length_range]; exact ht_out
  have hrow_t : ((decisionDists nrm n_out V Wlast y yp γ).getD b []).getD t 0 =
      100 / (((decisionDenom nrm n_out V Wlast y).getD b []).getD t 0) + 2 * γ := by
    rw [hrow, getD_zipWith _ _ yb t 0 0 0 (by rw [List.length_zipWith]; exact lt_min ht_num ht_den) ht_y,
      getD_zipWith _ _ _ t 0 0 0 ht_num ht_den, hnum_t, hy.2.1]
    ring
  refine ⟨hnum_t, hrow_t, ?_, ?_⟩
  · rw [hrow_t]
    have : 0 ≤ (100:ℚ) / (((decisionDenom nrm n_out V Wlast y).getD b []).getD t 0) :=
      div_nonneg (by norm_num) hD
    linarith
  · apply hinge_eq_zero _ _ hγ
    rw [hrow_t]
    have : 0 ≤ (100:ℚ) / (((decisionDenom nrm n_out V Wlast y).getD b []).getD t 0) :=
      div_nonneg (by norm_num) hD
    linarith

/-- C9 (witness): on a concrete one-hot example the true-class hinge entry
is exactly zero. -/
theorem C9_witness :
    hinge 10 (((decisionDists norm1 2 [[[1,0]]] [[1,0],[0,1]] [[1,0]]
      [[3/10, 2/5]] 10).getD 0 []).getD 0 0) = 0 :=
  (C9_true_class_excluded norm1 2 [[[1,0]]] [[1,0],[0,1]] [[1,0]] [[3/10, 2/5]]
    10 0 0 norm1_nonneg (by norm_num) (by simp) (by simp) (by simp) (by norm_num)
    (by simp)
    (by
      refine ⟨by simp, by simp, ?_⟩
      intro j hj hjne
      simp at hj
      interval_cases j
      · exact absurd rfl hjne
      · simp)).2.2.2

/-! ### Membership and bound lemmas for the hinge terms (C2) -/

theorem of_mem_zipWith {α β γ : Type} (f : α → β → γ) (a : List α) (b : List β)
    (x : γ) (hx : x ∈ List.zipWith f a b) : ∃ u ∈ a, ∃ v ∈ b, x = f u v := by
  induction a generalizing b with
  | nil => simp at hx
  | cons p ps ih =>
    cases b with
    | nil => simp at hx
    | cons q qs =>
      rcases List.mem_cons.mp hx with rfl | hmem
      · exact ⟨p, List.mem_cons_self p ps, q, List.mem_cons_self q qs, rfl⟩
      · rcases ih qs hmem with ⟨u, hu, v, hv, he⟩
        exact ⟨u, List.mem_cons_of_mem p hu, v, List.mem_cons_of_mem q hv, he⟩

theorem mem_idxMap {α β : Type} (f : ℕ → α → β) (i : ℕ) (l : List α)
    (x : β) (hx : x ∈ idxMap f i l) : ∃ j a, a ∈ l ∧ x = f j a := by
  induction l generalizing i with
  | nil => simp [idxMap] at hx
  | cons p ps ih =>
    rcases List.mem_cons.mp hx with rfl | hmem
    · exact ⟨i, p, List.mem_cons_self p ps, rfl⟩
    · rcases ih (i+1) hmem with ⟨j, a, ha, he⟩
      exact ⟨j, a, List.mem_cons_of_mem p ha, he⟩

theorem mem_flat3 (t : T3) (a : ℚ) (ha : a ∈ flat3 t) :
    ∃ m ∈ t, ∃ r ∈ m, a ∈ r := by
  unfold flat3 at ha
  rcases List.mem_flatten.mp ha with ⟨v, hv, hav⟩
  rcases List.mem_map.mp hv with ⟨m, hm, rfl⟩
  rcases List.mem_flatten.mp hav with ⟨r, hr, har⟩
  exact ⟨m, hm, r, hr, har⟩

theorem rowMask_mem (rand : Vec) (k : ℕ) (row : Vec) (x : ℚ)
    (hx : x ∈ rowMask rand k row) : x = 0 ∨ x = 1 := by
  cases h : rowMaxQ (kSmallest (jitterRow rand row) k) with
  | none =>
    simp only [rowMask, h] at hx
    rcases List.mem_map.mp hx with ⟨d, _, rfl⟩
    exact Or.inl rfl
  | some m =>
    simp only [rowMask, h] at hx
    rcases List.mem_map.mp hx with ⟨d, _, rfl⟩
    by_cases hd : d ≤ m
    · exact Or.inr (by rw [if_pos hd])
    · exact Or.inl (by rw [if_neg hd])

theorem rowMask_mem_nonneg (rand : Vec) (k : ℕ) (row : Vec) (x : ℚ)
    (hx : x ∈ rowMask rand k row) : 0 ≤ x := by
  rcases rowMask_mem rand k row x hx with rfl | rfl <;> norm_num

theorem maskedTermRow_nonneg (γ : ℚ) (th dr : Vec) (hth : ∀ t ∈ th, 0 ≤ t) :
    0 ≤ maskedTermRow γ th dr := by
  unfold maskedTermRow
  apply List.sum_nonneg
  intro x hx
  rcases of_mem_zipWith _ th dr x hx with ⟨u, hu, v, _, rfl⟩
  exact mul_nonneg (hth u hu) (hinge_nonneg γ v)

theorem maskedTermRow_le_sum (γ : ℚ) (th dr : Vec) (hγ : 0 < γ)
    (hth : ∀ t ∈ th, 0 ≤ t) (hdr : ∀ d ∈ dr, 0 ≤ d) :
    maskedTermRow γ th dr ≤ th.sum := by
  induction th generalizing dr with
  | nil => simp [maskedTermRow]
  | cons t ts ih =>
    have ht0 : 0 ≤ t := hth t (List.mem_cons_self t ts)
    have hts : ∀ u ∈ ts, 0 ≤ u := fun u hu => hth u (List.mem_cons_of_mem t hu)
    cases dr with
    | nil =>
      simp only [maskedTermRow, List.zipWith_nil_right, List.sum_nil, List.sum_cons]
      have : 0 ≤ ts.sum := List.sum_nonneg hts
      linarith
    | cons d ds =>
      have hd0 : 0 ≤ d := hdr d (List.mem_cons_self d ds)
      have hds : ∀ u ∈ ds, 0 ≤ u := fun u hu => hdr u (List.mem_cons_of_mem d hu)
      have hstep : t * hinge γ d ≤ t :=
        mul_le_of_le_one_right ht0 (hinge_le_one γ d hγ hd0)
      have := ih ds hts hds
      simp only [maskedTermRow, List.zipWith_cons_cons, List.sum_cons] at *
      linarith

theorem mask01_sum_eq_count (l : Vec) (h : ∀ x ∈ l, x = 0 ∨ x = 1) :
    l.sum = (l.count 1 : ℚ) := by
  induction l with
  | nil => simp
  | cons x xs ih =>
    have hxs := ih (fun u hu => h u (List.mem_cons_of_mem x hu))
    rcases h x (List.mem_cons_self x xs) with rfl | rfl <;>
      simp [List.count_cons, hxs] <;> push_cast <;> ring

theorem rowMask_sum_le (rand row : Vec) (k : ℕ)
    (hd : (jitterRow rand row).Pairwise (· ≠ ·)) :
    (rowMask rand k row).sum ≤ (k:ℚ) := by
  rw [mask01_sum_eq_count _ (rowMask_mem rand k row)]
  rw [rowMask_count_distinct rand row k hd]
  exact_mod_cast Nat.min_le_left _ _

theorem minQ_row_sum_le (a b : Vec) (ha : ∀ x ∈ a, 0 ≤ x) (hb : ∀ x ∈ b, 0 ≤ x) :
    (List.zipWith (fun x y => minQ (x + y) 1) a b).sum ≤ a.sum + b.sum := by
  induction a generalizing b with
  | nil =>
    simp only [List.zipWith_nil_left, List.sum_nil]
    have := List.sum_nonneg hb
    linarith
  | cons x xs ih =>
    cases b with
    | nil =>
      simp only [List.zipWith_nil_right, List.sum_nil]
      have h1 : 0 ≤ x := ha x (List.mem_cons_self x xs)
      have h2 : 0 ≤ xs.sum := List.sum_nonneg (fun u hu => ha u (List.mem_cons_of_mem x hu))
      simp only [List.sum_cons, List.sum_nil]
      linarith
    | cons y ys =>
      have h1 := minQ_le_left (x + y) 1
      have h2 := ih ys (fun u hu => ha u (List.mem_cons_of_mem x hu))
        (fun u hu => hb u (List.mem_cons_of_mem y hu))
      simp only [List.zipWith_cons_cons, List.sum_cons] at *
      linarith

theorem plainTermRow_nonneg (γ : ℚ) (dr : Vec) : 0 ≤ plainTermRow γ dr := by
  unfold plainTermRow
  apply List.sum_nonneg
  intro x hx
  rcases List.mem_map.mp hx with ⟨d, _, rfl⟩
  exact hinge_nonneg γ d

theorem plainTermRow_le_length (γ : ℚ) (dr : Vec) (hγ : 0 < γ)
    (hdr : ∀ d ∈ dr, 0 ≤ d) : plainTermRow γ dr ≤ (dr.length : ℚ) := by
  induction dr with
  | nil => simp [plainTermRow]
  | cons d ds ih =>
    have h1 : hinge γ d ≤ 1 := hinge_le_one γ d hγ (hdr d (List.mem_cons_self d ds))
    have h2 := ih (fun u hu => hdr u (List.mem_cons_of_mem d hu))
    simp only [plainTermRow, List.map_cons, List.sum_cons, List.length_cons] at *
    push_cast
    linarith

/-! ### Non-negativity of the region-boundary distances -/

theorem distRb0_flat_nonneg (nrm : Vec → ℚ) (hnrm : ∀ v, 0 ≤ nrm v) (z0 W0 : T4) :
    ∀ r ∈ (distRb0 nrm z0 W0).map flat3, ∀ a ∈ r, 0 ≤ a := by
  intro r hr a ha
  rcases List.mem_map.mp hr with ⟨zb, hzb, rfl⟩
  rcases mem_flat3 _ _ ha with ⟨m, hm, rr, hrr, harr⟩
  simp only [distRb0] at hzb
  rcases List.mem_map.mp hzb with ⟨zb0, _, rfl⟩
  rcases List.mem_map.mp hm with ⟨r0, _, rfl⟩
  rcases List.mem_map.mp hrr with ⟨chan, _, rfl⟩
  rcases mem_idxMap _ _ _ _ harr with ⟨c, zv, _, rfl⟩
  exact div_nonneg (absQ_nonneg zv) (hnrm _)

theorem distRbConv_flat_nonneg (nrm : Vec → ℚ) (hnrm : ∀ v, 0 ≤ nrm v) (z : T4) (Vst : T5) :
    ∀ r ∈ (distRbConv nrm z Vst).map flat3, ∀ a ∈ r, 0 ≤ a := by
  intro r hr a ha
  rcases List.mem_map.mp hr with ⟨zb, hzb, rfl⟩
  rcases mem_flat3 _ _ ha with ⟨m, hm, rr, hrr, harr⟩
  unfold distRbConv at hzb
  rcases of_mem_zipWith _ z Vst zb hzb with ⟨zb0, _, Vb, _, rfl⟩
  rcases mem_idxMap _ _ _ _ hm with ⟨i, r0, _, rfl⟩
  rcases mem_idxMap _ _ _ _ hrr with ⟨j, chan, _, rfl⟩
  rcases mem_idxMap _ _ _ _ harr with ⟨c, zv, _, rfl⟩
  exact div_nonneg (absQ_nonneg zv) (hnrm _)

theorem distRbFc_nonneg (nrm : Vec → ℚ) (hnrm : ∀ v, 0 ≤ nrm v) (z : Mat) (Vst : T3) :
    ∀ r ∈ distRbFc nrm z Vst, ∀ a ∈ r, 0 ≤ a := by
  intro r hr a ha
  unfold distRbFc at hr
  rcases of_mem_zipWith _ z Vst r hr with ⟨zb, _, Vb, _, rfl⟩
  rcases mem_idxMap _ _ _ _ ha with ⟨j, zv, _, rfl⟩
  exact div_nonneg (absQ_nonneg zv) (hnrm _)

theorem appendRows_nonneg (a b : Mat)
    (ha : ∀ r ∈ a, ∀ x ∈ r, 0 ≤ x) (hb : ∀ r ∈ b, ∀ x ∈ r, 0 ≤ x) :
    ∀ r ∈ appendRows a b, ∀ x ∈ r, 0 ≤ x := by
  intro r hr x hx
  rcases of_mem_zipWith _ a b r hr with ⟨ra, hra, rb, hrb, rfl⟩
  rcases List.mem_append.mp hx with h | h
  · exact ha ra hra x h
  · exact hb rb hrb x h

theorem convStage_dist_nonneg (nrm : Vec → ℚ) (hnrm : ∀ v, 0 ≤ nrm v) :
    ∀ (layers : List (T4 × T4)) (V : T5) (dist : Mat),
      (∀ r ∈ dist, ∀ a ∈ r, 0 ≤ a) →
      ∀ r ∈ (convStage nrm layers V dist).2, ∀ a ∈ r, 0 ≤ a := by
  intro layers
  induction layers with
  | nil => intro V dist h; exact h
  | cons zw rest ih =>
    intro V dist h
    cases zw with
    | mk z w =>
      exact ih _ _ (appendRows_nonneg _ _ h (distRbConv_flat_nonneg nrm hnrm z _))

theorem fcStage_dist_nonneg (nrm : Vec → ℚ) (hnrm : ∀ v, 0 ≤ nrm v) :
    ∀ (layers : List (Mat × Mat)) (V : T3) (dist : Mat),
      (∀ r ∈ dist, ∀ a ∈ r, 0 ≤ a) →
      ∀ r ∈ (fcStage nrm layers V dist).2, ∀ a ∈ r, 0 ≤ a := by
  intro layers
  induction layers with
  | nil => intro V dist h; exact h
  | cons zw rest ih =>
    intro V dist h
    cases zw with
    | mk z w =>
      exact ih _ _ (appendRows_nonneg _ _ h (distRbFc_nonneg nrm hnrm z _))

theorem convStageDual_dist_nonneg :
    ∀ (layers : List (T4 × T4)) (V : T5) (d1 d2 : Mat),
      (∀ r ∈ d1, ∀ a ∈ r, 0 ≤ a) → (∀ r ∈ d2, ∀ a ∈ r, 0 ≤ a) →
      (∀ r ∈ (convStageDual layers V d1 d2).2.1, ∀ a ∈ r, 0 ≤ a) ∧
      (∀ r ∈ (convStageDual layers V d1 d2).2.2, ∀ a ∈ r, 0 ≤ a) := by
  intro layers
  induction layers with
  | nil => intro V d1 d2 h1 h2; exact ⟨h1, h2⟩
  | cons zw rest ih =>
    intro V d1 d2 h1 h2
    cases zw with
    | mk z w =>
      exact ih _ _ _
        (appendRows_nonneg _ _ h1 (distRbConv_flat_nonneg normInf normInf_nonneg z _))
        (appendRows_nonneg _ _ h2 (distRbConv_flat_nonneg norm1 norm1_nonneg z _))

theorem fcStageDual_dist_nonneg :
    ∀ (layers : List (Mat × Mat)) (V : T3) (d1 d2 : Mat),
      (∀ r ∈ d1, ∀ a ∈ r, 0 ≤ a) → (∀ r ∈ d2, ∀ a ∈ r, 0 ≤ a) →
      (∀ r ∈ (fcStageDual layers V d1 d2).2.1, ∀ a ∈ r, 0 ≤ a) ∧
      (∀ r ∈ (fcStageDual layers V d1 d2).2.2, ∀ a ∈ r, 0 ≤ a) := by
  intro layers
  induction layers with
  | nil => intro V d1 d2 h1 h2; exact ⟨h1, h2⟩
  | cons zw rest ih =>
    intro V d1 d2 h1 h2
    cases zw with
    | mk z w =>
      exact ih _ _ _
        (appendRows_nonneg _ _ h1 (distRbFc_nonneg normInf normInf_nonneg z _))
        (appendRows_nonneg _ _ h2 (distRbFc_nonneg norm1 norm1_nonneg z _))

theorem singleConvFc_dist_nonneg (nrm : Vec → ℚ) (hnrm : ∀ v, 0 ≤ nrm v)
    (zc : List (T4 × T4)) (zf : List (Mat × Mat)) (h w c bs : ℕ) :
    ∀ r ∈ (singleConvFc nrm zc zf h w c bs).2, ∀ a ∈ r, 0 ≤ a := by
  unfold singleConvFc
  exact fcStage_dist_nonneg nrm hnrm _ _ _
    (convStage_dist_nonneg nrm hnrm _ _ _ (distRb0_flat_nonneg nrm hnrm _ _))

theorem dualConvFc_dist_nonneg (zc : List (T4 × T4)) (zf : List (Mat × Mat))
    (h w c bs : ℕ) :
    (∀ r ∈ (dualConvFc zc zf h w c bs).2.1, ∀ a ∈ r, 0 ≤ a) ∧
    (∀ r ∈ (dualConvFc zc zf h w c bs).2.2, ∀ a ∈ r, 0 ≤ a) := by
  unfold dualConvFc
  simp only []
  have hc := convStageDual_dist_nonneg (zc.drop 1)
    (mulRelu5 (seedV (zc.getD 0 ([], [])).2 h w c bs true) (reluT4 (zc.getD 0 ([], [])).1))
    ((distRb0 normInf (zc.getD 0 ([], [])).1 (zc.getD 0 ([], [])).2).map flat3)
    ((distRb0 norm1 (zc.getD 0 ([], [])).1 (zc.getD 0 ([], [])).2).map flat3)
    (distRb0_flat_nonneg normInf normInf_nonneg
      (zc.getD 0 ([], [])).1 (zc.getD 0 ([], [])).2)
    (distRb0_flat_nonneg norm1 norm1_nonneg
      (zc.getD 0 ([], [])).1 (zc.getD 0 ([], [])).2)
  exact fcStageDual_dist_nonneg zf.dropLast _ _ _ hc.1 hc.2

/-! ### Non-negativity and bounds of the regularizer terms (C2) -/

theorem zero_out_entries_nonneg (dist : Mat) (rand : Vec) (k : ℕ) :
    ∀ u ∈ zero_out_non_min_distances dist rand k, ∀ x ∈ u, 0 ≤ x := by
  intro u hu x hx
  rcases List.mem_map.mp hu with ⟨r, _, rfl⟩
  exact rowMask_mem_nonneg rand k r x hx

theorem unionMask_entries_nonneg (A B : Mat)
    (hA : ∀ u ∈ A, ∀ x ∈ u, 0 ≤ x) (hB : ∀ u ∈ B, ∀ x ∈ u, 0 ≤ x) :
    ∀ u ∈ unionMask A B, ∀ x ∈ u, 0 ≤ x := by
  intro u hu x hx
  rcases of_mem_zipWith _ A B u hu with ⟨ua, hua, ub, hub, rfl⟩
  rcases of_mem_zipWith _ ua ub x hx with ⟨a, ha, b, hb, rfl⟩
  exact minQ_nonneg _ _ (add_nonneg (hA ua hua a ha) (hB ub hub b hb)) (by norm_num)

theorem maskedTerm_nonneg (th dist : Mat) (γ : ℚ)
    (hth : ∀ u ∈ th, ∀ x ∈ u, 0 ≤ x) :
    ∀ t ∈ maskedTerm th dist γ, 0 ≤ t := by
  intro t ht
  rcases of_mem_zipWith _ th dist t ht with ⟨u, hu, r, _, rfl⟩
  exact maskedTermRow_nonneg γ u r (hth u hu)

theorem plainTerm_nonneg (dist : Mat) (γ : ℚ) : ∀ t ∈ plainTerm dist γ, 0 ≤ t := by
  intro t ht
  rcases List.mem_map.mp ht with ⟨r, _, rfl⟩
  exact plainTermRow_nonneg γ r

theorem mmrSingle_nonneg (nrm : Vec → ℚ) (zc : List (T4 × T4)) (zf : List (Mat × Mat))
    (h w c bs n_out : ℕ) (y yp : Mat) (n_rb n_db : ℕ) (grb gdb : ℚ) (r1 r2 : Vec) :
    (∀ a ∈ (mmrSingle nrm zc zf h w c bs n_out y yp n_rb n_db grb gdb r1 r2).1, 0 ≤ a) ∧
    (∀ a ∈ (mmrSingle nrm zc zf h w c bs n_out y yp n_rb n_db grb gdb r1 r2).2, 0 ≤ a) :=
  ⟨maskedTerm_nonneg _ _ _ (zero_out_entries_nonneg _ r1 n_rb),
   maskedTerm_nonneg _ _ _ (zero_out_entries_nonneg _ r2 n_db)⟩

theorem mmrDual_nonneg (zc : List (T4 × T4)) (zf : List (Mat × Mat))
    (h w c bs n_out : ℕ) (y yp : Mat) (n_rb n_db : ℕ) (g1 g2 g3 g4 : ℚ) (r1 r2 : Vec) :
    (∀ a ∈ (mmrDual zc zf h w c bs n_out y yp n_rb n_db g1 g2 g3 g4 r1 r2).1, 0 ≤ a) ∧
    (∀ a ∈ (mmrDual zc zf h w c bs n_out y yp n_rb n_db g1 g2 g3 g4 r1 r2).2.1, 0 ≤ a) ∧
    (∀ a ∈ (mmrDual zc zf h w c bs n_out y yp n_rb n_db g1 g2 g3 g4 r1 r2).2.2.1, 0 ≤ a) ∧
    (∀ a ∈ (mmrDual zc zf h w c bs n_out y yp n_rb n_db g1 g2 g3 g4 r1 r2).2.2.2, 0 ≤ a) := by
  have hun := unionMask_entries_nonneg _ _
    (zero_out_entries_nonneg (dualConvFc zc zf h w c bs).2.1 r1 n_rb)
    (zero_out_entries_nonneg (dualConvFc zc zf h w c bs).2.2 r2 n_rb)
  exact ⟨maskedTerm_nonneg _ _ _ hun, maskedTerm_nonneg _ _ _ hun,
    plainTerm_nonneg _ _, plainTerm_nonneg _ _⟩

/-- Non-negativity of every returned term, phrased on the result of
`mmr_cnn`. -/
def MmrOut.termsNonneg : MmrOut → Prop
  | .pair rb db => (∀ a ∈ rb, 0 ≤ a) ∧ (∀ a ∈ db, 0 ≤ a)
  | .quad a b c d =>
      (∀ x ∈ a, 0 ≤ x) ∧ (∀ x ∈ b, 0 ≤ x) ∧ (∀ x ∈ c, 0 ≤ x) ∧ (∀ x ∈ d, 0 ≤ x)

/-- C2 (amended): every per-example term of every `mmr_cnn` result is
non-negative, with no assumptions at all.  The upper bounds hold in the
qualified forms: the single-norm region-boundary term is at most `n_rb`
when `gamma_rb > 0` and the jittered region-boundary distances of each row
are pairwise distinct (`tf.norm(·, ord=q)` non-negative); the single-norm
decision-boundary term is at most `n_db` under the same distinctness for
the decision distances plus the assumption that those distances are
non-negative (negative prediction margins push a hinge above `1` and break
the bound); each dual-mode region-boundary term is bounded by `2 * n_rb`,
not `n_rb`, because the shared union mask can select up to `2 * n_rb`
entries; and the dual-mode decision-boundary terms, being unmasked, are
bounded only by the number of classes (again assuming non-negative
distances), not by `n_db`. -/
theorem C2_term_bounds :
    (∀ (n2 : Vec → ℚ) (z_list : List Tens) (x : T4) (y : Mat) (n_rb n_db : ℕ)
        (grb gdb : Garg) (bs : ℕ) (q : Qarg) (wts : List Tens) (r1 r2 : Vec)
        (out : MmrOut),
      mmr_cnn n2 z_list x y n_rb n_db grb gdb bs q wts r1 r2 = some out →
      out.termsNonneg) ∧
    (∀ (nrm : Vec → ℚ) (zc : List (T4 × T4)) (zf : List (Mat × Mat))
        (h w c bs n_out : ℕ) (y yp : Mat) (n_rb n_db : ℕ) (grb gdb : ℚ) (r1 r2 : Vec),
      (∀ v, 0 ≤ nrm v) → 0 < grb →
      (∀ row ∈ (singleConvFc nrm zc zf h w c bs).2, (jitterRow r1 row).Pairwise (· ≠ ·)) →
      ∀ t ∈ (mmrSingle nrm zc zf h w c bs n_out y yp n_rb n_db grb gdb r1 r2).1,
        t ≤ (n_rb : ℚ)) ∧
    (∀ (nrm : Vec → ℚ) (zc : List (T4 × T4)) (zf : List (Mat × Mat))
        (h w c bs n_out : ℕ) (y yp : Mat) (n_rb n_db : ℕ) (grb gdb : ℚ) (r1 r2 : Vec),
      0 < gdb →
      (∀ row ∈ singleDb nrm zc zf h w c bs n_out y yp gdb, ∀ a ∈ row, 0 ≤ a) →
      (∀ row ∈ singleDb nrm zc zf h w c bs n_out y yp gdb,
        (jitterRow r2 row).Pairwise (· ≠ ·)) →
      ∀ t ∈ (mmrSingle nrm zc zf h w c bs n_out y yp n_rb n_db grb gdb r1 r2).2,
        t ≤ (n_db : ℚ)) ∧
    (∀ (zc : List (T4 × T4)) (zf : List (Mat × Mat)) (h w c bs n_out : ℕ)
        (y yp : Mat) (n_rb n_db : ℕ) (g1 g2 g3 g4 : ℚ) (r1 r2 : Vec),
      (∀ row ∈ (dualConvFc zc zf h w c bs).2.1, (jitterRow r1 row).Pairwise (· ≠ ·)) →
      (∀ row ∈ (dualConvFc zc zf h w c bs).2.2, (jitterRow r2 row).Pairwise (· ≠ ·)) →
      (0 < g1 →
        ∀ t ∈ (mmrDual zc zf h w c bs n_out y yp n_rb n_db g1 g2 g3 g4 r1 r2).1,
          t ≤ (2 * n_rb : ℚ)) ∧
      (0 < g2 →
        ∀ t ∈ (mmrDual zc zf h w c bs n_out y yp n_rb n_db g1 g2 g3 g4 r1 r2).2.1,
          t ≤ (2 * n_rb : ℚ))) ∧
    (∀ (zc : List (T4 × T4)) (zf : List (Mat × Mat)) (h w c bs n_out : ℕ)
        (y yp : Mat) (n_rb n_db : ℕ) (g1 g2 g3 g4 : ℚ) (r1 r2 : Vec),
      ((mmrDual zc zf h w c bs n_out y yp n_rb n_db g1 g2 g3 g4 r1 r2).2.2.1 =
        plainTerm (dualDb1 zc zf h w c bs n_out y yp g3) g3) ∧
      (0 < g3 →
        (∀ row ∈ dualDb1 zc zf h w c bs n_out y yp g3, ∀ a ∈ row, 0 ≤ a) →
        ∀ row ∈ dualDb1 zc zf h w c bs n_out y yp g3,
          plainTermRow g3 row ≤ (row.length : ℚ))) := by
  refine ⟨?_, ?_, ?_, ?_, ?_⟩
  · -- non-negativity of everything mmr_cnn can return
    intro n2 z_list x y n_rb n_db grb gdb bs q wts r1 r2 out heq
    unfold mmr_cnn at heq
    split_ifs at heq <;>
      (first
        | (rw [Option.some_inj] at heq
           subst heq
           first
             | exact ⟨(mmrSingle_nonneg _ _ _ _ _ _ _ _ _ _ _ _ _ _ _ _).1,
                 (mmrSingle_nonneg _ _ _ _ _ _ _ _ _ _ _ _ _ _ _ _).2⟩
             | (rcases mmrDual_nonneg (convPairs z_list wts) (fcPairs z_list wts)
                 ((x.getD 0 []).length) (((x.getD 0 []).getD 0 []).length)
                 ((((x.getD 0 []).getD 0 []).getD 0 []).length) bs
                 ((y.getD 0 []).length) y ((z_list.getLast?.getD (.r2 [])).asMat)
                 n_rb n_db grb.fst grb.snd gdb.fst gdb.snd r1 r2 with ⟨h1, h2, h3, h4⟩
                exact ⟨h1, h2, h3, h4⟩))
        | exact absurd heq (by simp))
  · -- single-norm rb bound
    intro nrm zc zf h w c bs n_out y yp n_rb n_db grb gdb r1 r2 hnrm hγ hdist t ht
    rcases of_mem_zipWith _ _ _ t ht with ⟨u, hu, r, hr, rfl⟩
    rcases List.mem_map.mp hu with ⟨rr, hrr, rfl⟩
    calc maskedTermRow grb (rowMask r1 n_rb rr) r
        ≤ (rowMask r1 n_rb rr).sum :=
          maskedTermRow_le_sum _ _ _ hγ (rowMask_mem_nonneg r1 n_rb rr)
            (singleConvFc_dist_nonneg nrm hnrm zc zf h w c bs r hr)
      _ ≤ (n_rb : ℚ) := rowMask_sum_le r1 rr n_rb (hdist rr hrr)
  · -- single-norm db bound
    intro nrm zc zf h w c bs n_out y yp n_rb n_db grb gdb r1 r2 hγ hpos hdist t ht
    rcases of_mem_zipWith _ _ _ t ht with ⟨u, hu, r, hr, rfl⟩
    rcases List.mem_map.mp hu with ⟨rr, hrr, rfl⟩
    calc maskedTermRow gdb (rowMask r2 n_db rr) r
        ≤ (rowMask r2 n_db rr).sum :=
          maskedTermRow_le_sum _ _ _ hγ (rowMask_mem_nonneg r2 n_db rr) (hpos r hr)
      _ ≤ (n_db : ℚ) := rowMask_sum_le r2 rr n_db (hdist rr hrr)
  · -- dual-mode rb bounds (union mask)
    intro zc zf h w c bs n_out y yp n_rb n_db g1 g2 g3 g4 r1 r2 hd1 hd2
    have key : ∀ (γ : ℚ) (dist : Mat), 0 < γ →
        (∀ r ∈ dist, ∀ a ∈ r, 0 ≤ a) →
        ∀ t ∈ maskedTerm
          (unionMask (zero_out_non_min_distances (dualConvFc zc zf h w c bs).2.1 r1 n_rb)
                     (zero_out_non_min_distances (dualConvFc zc zf h w c bs).2.2 r2 n_rb))
          dist γ, t ≤ (2 * n_rb : ℚ) := by
      intro γ dist hγ hdist t ht
      rcases of_mem_zipWith _ _ _ t ht with ⟨u, hu, r, hr, rfl⟩
      rcases of_mem_zipWith _ _ _ u hu with ⟨ua, hua, ub, hub, rfl⟩
      rcases List.mem_map.mp hua with ⟨ra, hra, rfl⟩
      rcases List.mem_map.mp hub with ⟨rb, hrb, rfl⟩
      calc maskedTermRow γ _ r
          ≤ (List.zipWith (fun x y => minQ (x + y) 1)
              (rowMask r1 n_rb ra) (rowMask r2 n_rb rb)).sum :=
            maskedTermRow_le_sum _ _ _ hγ
              (fun x hx => by
                rcases of_mem_zipWith _ _ _ x hx with ⟨a, ha, b, hb, rfl⟩
                exact minQ_nonneg _ _
                  (add_nonneg (rowMask_mem_nonneg r1 n_rb ra a ha)
                    (rowMask_mem_nonneg r2 n_rb rb b hb)) (by norm_num))
              (hdist r hr)
        _ ≤ (rowMask r1 n_rb ra).sum + (rowMask r2 n_rb rb).sum :=
            minQ_row_sum_le _ _ (rowMask_mem_nonneg r1 n_rb ra)
              (rowMask_mem_nonneg r2 n_rb rb)
        _ ≤ (n_rb : ℚ) + (n_rb : ℚ) :=
            add_le_add (rowMask_sum_le r1 ra n_rb (hd1 ra hra))
              (rowMask_sum_le r2 rb n_rb (hd2 rb hrb))
        _ = (2 * n_rb : ℚ) := by ring
    exact ⟨fun hγ => key g1 _ hγ (dualConvFc_dist_nonneg zc zf h w c bs).1,
           fun hγ => key g2 _ hγ (dualConvFc_dist_nonneg zc zf h w c bs).2⟩
  · -- dual-mode db: unmasked, bounded only by the class count
    intro zc zf h w c bs n_out y yp n_rb n_db g1 g2 g3 g4 r1 r2
    exact ⟨rfl, fun hγ hpos row hrow =>
      plainTermRow_le_length g3 row hγ (hpos row hrow)⟩

/-! ### A concrete toy network: one conv layer, one hidden fc layer, logits -/

def toyZ0 : T4 := [[[[1],[1]],[[1],[1]]]]
def toyW0 : T4 := [[[[1]]]]
def toyZh : Mat := [[5, 7]]
def toyWh : Mat := [[1,0],[0,1],[1,1],[2,1]]
def toyZl : Mat := [[3/10, 2/5]]
def toyWl : Mat := [[1,0],[0,1]]
def toyY : Mat := [[1,0]]
def toyX : T4 := [[[[0],[0]],[[0],[0]]]]
def toyZs : List Tens := [.r4 toyZ0, .r2 toyZh, .r2 toyZl]
def toyWs : List Tens := [.r4 toyW0, .r1 [], .r2 toyWh, .r1 [], .r2 toyWl, .r1 []]
def toyR : Vec := [0,0,0,0,0,0]
def toyR2 : Vec := [0,1,2,3,4,5]

/-- C2 (counterexample): on the toy network in dual mode with
`n_rb = n_db = 1` and `gamma = 10` everywhere, the first region-boundary
term is `18/5 > 1 = n_rb` (the tied distances make the selector mark four
entries, and the union mask keeps them all) and the first decision-boundary
term is `101/100 > 1 = n_db` (no mask is applied and the misclassified
example has a negative margin), refuting both claimed upper bounds. -/
theorem C2_counterexample :
    mmr_cnn (fun _ => 0) toyZs toyX toyY 1 1 (.pair 10 10) (.pair 10 10) 1 .univ
      toyWs toyR toyR = some (.quad [18/5] [18/5] [101/100] [301001/300001]) ∧
    ¬((18/5 : ℚ) ≤ (1 : ℚ)) ∧ ¬((101/100 : ℚ) ≤ (1 : ℚ)) := by
  have hq1 : (Qarg.univ) ≠ .num 1 := by simp
  have hq2 : (Qarg.univ) ≠ .num 2 := by simp
  have hq3 : (Qarg.univ) ≠ .infty := by simp
  refine ⟨?_, by norm_num, by norm_num⟩
  rw [show mmr_cnn (fun _ => (0:ℚ)) toyZs toyX toyY 1 1 (.pair 10 10) (.pair 10 10) 1
      .univ toyWs toyR toyR =
    some (.quad
      (mmrDual (convPairs toyZs toyWs) (fcPairs toyZs toyWs) 2 2 1 1 2 toyY
        ((toyZs.getLast?.getD (.r2 [])).asMat) 1 1 10 10 10 10 toyR toyR).1
      (mmrDual (convPairs toyZs toyWs) (fcPairs toyZs toyWs) 2 2 1 1 2 toyY
        ((toyZs.getLast?.getD (.r2 [])).asMat) 1 1 10 10 10 10 toyR toyR).2.1
      (mmrDual (convPairs toyZs toyWs) (fcPairs toyZs toyWs) 2 2 1 1 2 toyY
        ((toyZs.getLast?.getD (.r2 [])).asMat) 1 1 10 10 10 10 toyR toyR).2.2.1
      (mmrDual (convPairs toyZs toyWs) (fcPairs toyZs toyWs) 2 2 1 1 2 toyY
        ((toyZs.getLast?.getD (.r2 [])).asMat) 1 1 10 10 10 10 toyR toyR).2.2.2) from by
    simp only [mmr_cnn, if_neg hq1, if_neg hq2, if_neg hq3, eq_self_iff_true, if_true]
    norm_num [toyX, toyY, Garg.fst, Garg.snd]]
  norm_num [mmrDual, Garg.fst, Garg.snd, dualConvFc, convPairs, convPairsFrom,
    fcPairs, fcPairsFrom, toyZs, toyWs, toyZ0, toyW0, toyZh, toyWh, toyZl, toyWl,
    toyY, toyX, toyR,
    Tens.asT4, Tens.asMat, distRb0, flat3, colFc, normInf, norm1, absQ, maxQ, minQ,
    eyeFM, seedV, calc_v_conv, conv2d, maxpool2d, convOut, poolOut, idxT3, mulRelu5,
    hadamard3, bZip, reluT4, indic, convStageDual, flattenV, fcStageDual, calc_v_fc, vecMat,
    dot, stabT3, stabV, stabD, distRbFc, appendRows, eps, idxMap, colConv,
    zero_out_non_min_distances, rowMask, jitterRow, kSmallest, rowMaxQ,
    List.insertionSort, List.orderedInsert, unionMask, maskedTerm, maskedTermRow,
    plainTerm, plainTermRow, hinge, decisionDists, decisionNumer, decisionDenom,
    dualDb1, dualDb2, lastW, reluMat, mulRelu3,
    List.range_succ, List.cons_ne_nil]

set_option maxHeartbeats 2000000 in
/-- C2 (witness for the amended theorem): with a tie-breaking draw the
single-norm region-boundary term respects its `n_rb` bound. -/
theorem C2_witness :
    ∀ t ∈ (mmrSingle normInf (convPairs toyZs toyWs) (fcPairs toyZs toyWs)
      2 2 1 1 2 toyY toyZl 1 1 10 10 toyR2 toyR2).1, t ≤ (1 : ℚ) :=
  C2_term_bounds.2.1 normInf (convPairs toyZs toyWs) (fcPairs toyZs toyWs)
    2 2 1 1 2 toyY toyZl 1 1 10 10 toyR2 toyR2 normInf_nonneg (by norm_num)
    (by
      norm_num [singleConvFc, convStage, fcStage, convPairs, convPairsFrom,
        fcPairs, fcPairsFrom, toyZs, toyWs, toyZ0, toyW0, toyZh, toyWh, toyZl, toyWl,
        Tens.asT4, Tens.asMat, distRb0, flat3, colFc, normInf, norm1, absQ, maxQ,
        eyeFM, seedV, calc_v_conv, conv2d, maxpool2d, convOut, poolOut, idxT3, mulRelu5,
        hadamard3, bZip, reluT4, indic, flattenV, calc_v_fc, vecMat,
        dot, stabT3, stabV, distRbFc, appendRows, eps, idxMap, colConv, toyR2,
        jitterRow, List.pairwise_cons, List.range_succ, List.cons_ne_nil])

/-! ### Dual mode versus single-norm mode (C1) -/

/-- C1 (amended): when the network has exactly one conv layer and exactly
one fully-connected (logit) layer — so every region-boundary distance comes
from the first conv layer's filter-column norms, which both branches compute
identically and without the sensitivity tensor — dual mode returns four
terms, its two region-boundary distance matrices coincide with the
single-norm-mode matrices for `q = np.inf` and `q = 1`, and its `rb_l1` /
`rb_linf` terms are exactly the single-norm-mode region-boundary terms with
the mode's own selector mask replaced by the shared union mask.  (For deeper
networks the distance matrices differ, because the single-norm branch
max-pools the identity seed, `boo_last = False` at source line 132, while
the dual branch skips that pool, `boo_last = True` at line 202; see the
counterexample.) -/
theorem C1_one_layer_equivalence (n2 : Vec → ℚ) (z0 W0 : T4) (zl Wl : Mat)
    (w1 w3 : Tens) (x : T4) (y yp : Mat) (n_rb n_db : ℕ) (g1 g2 g3 g4 : ℚ)
    (bs : ℕ) (r1 r2 : Vec) (h w c n_out : ℕ) :
    (mmr_cnn n2 [Tens.r4 z0, Tens.r2 zl] x y n_rb n_db (.pair g1 g2) (.pair g3 g4)
        bs .univ [Tens.r4 W0, w1, Tens.r2 Wl, w3] r1 r2 =
      some (.quad
        (mmrDual [(z0, W0)] [(zl, Wl)] ((x.getD 0 []).length)
          (((x.getD 0 []).getD 0 []).length)
          ((((x.getD 0 []).getD 0 []).getD 0 []).length) bs ((y.getD 0 []).length)
          y zl n_rb n_db g1 g2 g3 g4 r1 r2).1
        (mmrDual [(z0, W0)] [(zl, Wl)] ((x.getD 0 []).length)
          (((x.getD 0 []).getD 0 []).length)
          ((((x.getD 0 []).getD 0 []).getD 0 []).length) bs ((y.getD 0 []).length)
          y zl n_rb n_db g1 g2 g3 g4 r1 r2).2.1
        (mmrDual [(z0, W0)] [(zl, Wl)] ((x.getD 0 []).length)
          (((x.getD 0 []).getD 0 []).length)
          ((((x.getD 0 []).getD 0 []).getD 0 []).length) bs ((y.getD 0 []).length)
          y zl n_rb n_db g1 g2 g3 g4 r1 r2).2.2.1
        (mmrDual [(z0, W0)] [(zl, Wl)] ((x.getD 0 []).length)
          (((x.getD 0 []).getD 0 []).length)
          ((((x.getD 0 []).getD 0 []).getD 0 []).length) bs ((y.getD 0 []).length)
          y zl n_rb n_db g1 g2 g3 g4 r1 r2).2.2.2)) ∧
    ((dualConvFc [(z0, W0)] [(zl, Wl)] h w c bs).2.1 =
      (singleConvFc normInf [(z0, W0)] [(zl, Wl)] h w c bs).2) ∧
    ((dualConvFc [(z0, W0)] [(zl, Wl)] h w c bs).2.2 =
      (singleConvFc norm1 [(z0, W0)] [(zl, Wl)] h w c bs).2) ∧
    ((mmrDual [(z0, W0)] [(zl, Wl)] h w c bs n_out y yp n_rb n_db g1 g2 g3 g4 r1 r2).1 =
      maskedTerm
        (unionMask
          (zero_out_non_min_distances
            (singleConvFc normInf [(z0, W0)] [(zl, Wl)] h w c bs).2 r1 n_rb)
          (zero_out_non_min_distances
            (singleConvFc norm1 [(z0, W0)] [(zl, Wl)] h w c bs).2 r2 n_rb))
        (singleConvFc normInf [(z0, W0)] [(zl, Wl)] h w c bs).2 g1) ∧
    ((mmrDual [(z0, W0)] [(zl, Wl)] h w c bs n_out y yp n_rb n_db g1 g2 g3 g4 r1 r2).2.1 =
      maskedTerm
        (unionMask
          (zero_out_non_min_distances
            (singleConvFc normInf [(z0, W0)] [(zl, Wl)] h w c bs).2 r1 n_rb)
          (zero_out_non_min_distances
            (singleConvFc norm1 [(z0, W0)] [(zl, Wl)] h w c bs).2 r2 n_rb))
        (singleConvFc norm1 [(z0, W0)] [(zl, Wl)] h w c bs).2 g2) :=
  ⟨rfl, rfl, rfl, rfl, rfl⟩

set_option maxHeartbeats 4000000 in
/-- C1 (counterexample): on the toy network with a hidden fully-connected
layer, the per-neuron distance vectors of the two modes do not coincide
(dual mode: `[1, 1, 1, 1, 5/2, 7]`; single-norm mode with `q = np.inf`:
`[1, 1, 1, 1, 5/4, 7/3]`, the pooled seed having been broadcast back
against the 2x2 relu tensor), because the single-norm branch max-pools the
identity seed while the dual branch skips that pool; consequently the dual
`rb_l1` term (`87/20`) also differs from the single-norm `q = np.inf` term
computed with the shared union mask substituted (`179/40`). -/
theorem C1_counterexample :
    ((dualConvFc (convPairs toyZs toyWs) (fcPairs toyZs toyWs) 2 2 1 1).2.1 ≠
      (singleConvFc normInf (convPairs toyZs toyWs) (fcPairs toyZs toyWs) 2 2 1 1).2) ∧
    ((mmrDual (convPairs toyZs toyWs) (fcPairs toyZs toyWs) 2 2 1 1 2 toyY toyZl
        5 1 10 10 10 10 toyR toyR).1 ≠
      maskedTerm
        (unionMask
          (zero_out_non_min_distances
            (dualConvFc (convPairs toyZs toyWs) (fcPairs toyZs toyWs) 2 2 1 1).2.1 toyR 5)
          (zero_out_non_min_distances
            (dualConvFc (convPairs toyZs toyWs) (fcPairs toyZs toyWs) 2 2 1 1).2.2 toyR 5))
        (singleConvFc normInf (convPairs toyZs toyWs) (fcPairs toyZs toyWs) 2 2 1 1).2
        10) := by
  have e1 : (dualConvFc (convPairs toyZs toyWs) (fcPairs toyZs toyWs) 2 2 1 1).2.1 =
      [[1, 1, 1, 1, 5/2, 7]] := by
    norm_num [dualConvFc, convPairs, convPairsFrom, fcPairs, fcPairsFrom,
      toyZs, toyWs, toyZ0, toyW0, toyZh, toyWh, toyZl, toyWl,
      Tens.asT4, Tens.asMat, distRb0, flat3, colFc, normInf, norm1, absQ, maxQ,
      eyeFM, seedV, calc_v_conv, conv2d, maxpool2d, convOut, poolOut, idxT3, mulRelu5,
      hadamard3, bZip, reluT4, indic, convStageDual, flattenV, fcStageDual, calc_v_fc, vecMat,
      dot, stabT3, stabV, distRbFc, appendRows, eps, idxMap, colConv, reluMat, mulRelu3,
      List.range_succ, List.cons_ne_nil]
  have e2 : (dualConvFc (convPairs toyZs toyWs) (fcPairs toyZs toyWs) 2 2 1 1).2.2 =
      [[1, 1, 1, 1, 500000/400001, 700000/300001]] := by
    norm_num [dualConvFc, convPairs, convPairsFrom, fcPairs, fcPairsFrom,
      toyZs, toyWs, toyZ0, toyW0, toyZh, toyWh, toyZl, toyWl,
      Tens.asT4, Tens.asMat, distRb0, flat3, colFc, normInf, norm1, absQ, maxQ,
      eyeFM, seedV, calc_v_conv, conv2d, maxpool2d, convOut, poolOut, idxT3, mulRelu5,
      hadamard3, bZip, reluT4, indic, convStageDual, flattenV, fcStageDual, calc_v_fc, vecMat,
      dot, stabT3, stabV, distRbFc, appendRows, eps, idxMap, colConv, reluMat, mulRelu3,
      List.range_succ, List.cons_ne_nil]
  have e3 : (singleConvFc normInf (convPairs toyZs toyWs) (fcPairs toyZs toyWs) 2 2 1 1).2 =
      [[1, 1, 1, 1, 5/4, 7/3]] := by
    norm_num [singleConvFc, convStage, fcStage, convPairs, convPairsFrom,
      fcPairs, fcPairsFrom, toyZs, toyWs, toyZ0, toyW0, toyZh, toyWh, toyZl, toyWl,
      Tens.asT4, Tens.asMat, distRb0, flat3, colFc, normInf, norm1, absQ, maxQ,
      eyeFM, seedV, calc_v_conv, conv2d, maxpool2d, convOut, poolOut, idxT3, mulRelu5,
      hadamard3, bZip, reluT4, indic, flattenV, calc_v_fc, vecMat,
      dot, stabT3, stabV, distRbFc, appendRows, eps, idxMap, colConv, reluMat, mulRelu3,
      List.range_succ, List.cons_ne_nil]
  have e4 : (mmrDual (convPairs toyZs toyWs) (fcPairs toyZs toyWs) 2 2 1 1 2 toyY toyZl
      5 1 10 10 10 10 toyR toyR).1 = [87/20] := by
    have hm : (mmrDual (convPairs toyZs toyWs) (fcPairs toyZs toyWs) 2 2 1 1 2 toyY toyZl
        5 1 10 10 10 10 toyR toyR).1 =
      maskedTerm
        (unionMask
          (zero_out_non_min_distances
            (dualConvFc (convPairs toyZs toyWs) (fcPairs toyZs toyWs) 2 2 1 1).2.1 toyR 5)
          (zero_out_non_min_distances
            (dualConvFc (convPairs toyZs toyWs) (fcPairs toyZs toyWs) 2 2 1 1).2.2 toyR 5))
        (dualConvFc (convPairs toyZs toyWs) (fcPairs toyZs toyWs) 2 2 1 1).2.1 10 := rfl
    rw [hm, e1, e2]
    norm_num [zero_out_non_min_distances, rowMask, jitterRow, kSmallest, rowMaxQ,
      List.insertionSort, List.orderedInsert, unionMask, maskedTerm, maskedTermRow,
      hinge, maxQ, minQ, eps, toyR]
  refine ⟨?_, ?_⟩
  · rw [e1, e3]
    norm_num
  · rw [e4, e1, e2, e3]
    norm_num [zero_out_non_min_distances, rowMask, jitterRow, kSmallest, rowMaxQ,
      List.insertionSort, List.orderedInsert, unionMask, maskedTerm, maskedTermRow,
      hinge, maxQ, minQ, eps, toyR]
